import Mathlib

/-
Verification of the lazy-propagation segment tree in
data_structures/segment_tree.hpp (class SegmentTree), using the constants
of utilities/common.hpp (int is long long, INF = 1e18).

Embedding conventions:
* The three vectors ar, segment_tree, lazy are modelled as total maps
  Nat -> Int.  On valid inputs (N >= 1, tree indices below the 4*N
  allocation) every C++ access is in bounds, so the total-map model agrees
  with the vector semantics on the whole defined domain; signed long long
  arithmetic that does not overflow is exact Int arithmetic.
* The recursive member functions recurse on interval halving; they are
  written with an explicit fuel argument so that they are structurally
  recursive and computable by the kernel.  Every top-level entry point
  passes fuel (fin + 1 - start), which is proved sufficient: the interval
  length strictly decreases along every recursive call.
-/

namespace SegTreeVerify

/-- Sentinel from utilities/common.hpp, line 50: const ll INF = 1e18. -/
def INF : Int := 10 ^ 18

/-- State of a C++ SegmentTree object: members ar, segment_tree, lazy, n
    (segment_tree.hpp lines 34-35). -/
structure SegTree where
  ar : Nat → Int
  segment_tree : Nat → Int
  lazy : Nat → Int
  n : Nat

/-- Pointwise update of a map, modelling a vector write v[i] = x. -/
def fset (f : Nat → Int) (i : Nat) (v : Int) : Nat → Int :=
  fun j => if j = i then v else f j

/-- push from segment_tree.hpp lines 59-68, performed sequentially exactly
    as in the source: add lazy[node] into segment_tree[node], propagate it
    to the two children when the node is not a leaf, clear lazy[node]. -/
def push (st : SegTree) (node start fin : Nat) : SegTree :=
  if st.lazy node ≠ 0 then
    let st1 : SegTree :=
      { st with segment_tree := fset st.segment_tree node (st.segment_tree node + st.lazy node) }
    let st2 : SegTree :=
      if start ≠ fin then
        let stl : SegTree :=
          { st1 with lazy := fset st1.lazy (2 * node) (st1.lazy (2 * node) + st1.lazy node) }
        { stl with lazy := fset stl.lazy (2 * node + 1) (stl.lazy (2 * node + 1) + stl.lazy node) }
      else st1
    { st2 with lazy := fset st2.lazy node 0 }
  else st

/-- rangeUpdate from segment_tree.hpp lines 70-82, with structural fuel.
    Argument order matches the source: (node, start, end, l, r, val). -/
def rangeUpdateGo : Nat → SegTree → Nat → Nat → Nat → Nat → Nat → Int → SegTree
  | 0, st, _, _, _, _, _, _ => st
  | fuel + 1, st, node, start, fin, l, r, val =>
    let st0 := push st node start fin
    if start > fin ∨ start > r ∨ fin < l then st0
    else if l ≤ start ∧ fin ≤ r then
      push { st0 with lazy := fset st0.lazy node (st0.lazy node + val) } node start fin
    else
      let mid := (start + fin) / 2
      let stL := rangeUpdateGo fuel st0 (2 * node) start mid l r val
      let stR := rangeUpdateGo fuel stL (2 * node + 1) (mid + 1) fin l r val
      { stR with segment_tree := fset stR.segment_tree node (min (stR.segment_tree (2 * node)) (stR.segment_tree (2 * node + 1))) }

/-- rangeUpdate wrapper supplying sufficient fuel (the interval length). -/
def rangeUpdate (st : SegTree) (node start fin l r : Nat) (val : Int) : SegTree :=
  rangeUpdateGo (fin + 1 - start) st node start fin l r val

/-- query from segment_tree.hpp lines 84-96, with structural fuel.
    Argument order matches the source:
    (start_index, end_index, segment_index, query_start, query_end).
    Returns the result together with the mutated object (query mutates the
    object through push). -/
def queryGo : Nat → SegTree → Nat → Nat → Nat → Nat → Nat → Int × SegTree
  | 0, st, _, _, _, _, _ => (INF, st)
  | fuel + 1, st, start, fin, seg, qs, qe =>
    let st0 := push st seg start fin
    if qe < start ∨ qs > fin then (INF, st0)
    else if qs ≤ start ∧ fin ≤ qe then (st0.segment_tree seg, st0)
    else
      let mid := (start + fin) / 2
      let pL := queryGo fuel st0 start mid (2 * seg) qs qe
      let pR := queryGo fuel pL.2 (mid + 1) fin (2 * seg + 1) qs qe
      (min pL.1 pR.1, pR.2)

/-- query wrapper supplying sufficient fuel. -/
def query (st : SegTree) (start fin seg qs qe : Nat) : Int × SegTree :=
  queryGo (fin + 1 - start) st start fin seg qs qe

/-- buildTree from segment_tree.hpp lines 46-57, with structural fuel. -/
def buildTreeGo : Nat → SegTree → Nat → Nat → Nat → SegTree
  | 0, st, _, _, _ => st
  | fuel + 1, st, start, fin, seg =>
    if start = fin then
      { st with segment_tree := fset st.segment_tree seg (st.ar start) }
    else
      let mid := (start + fin) / 2
      let stL := buildTreeGo fuel st start mid (2 * seg)
      let stR := buildTreeGo fuel stL (mid + 1) fin (2 * seg + 1)
      { stR with segment_tree := fset stR.segment_tree seg (min (stR.segment_tree (2 * seg)) (stR.segment_tree (2 * seg + 1))) }

/-- buildTree wrapper supplying sufficient fuel. -/
def buildTree (st : SegTree) (start fin seg : Nat) : SegTree :=
  buildTreeGo (fin + 1 - start) st start fin seg

/-- Constructor SegmentTree(vi and arr), segment_tree.hpp lines 38-44: copy
    the input, allocate segment_tree (filled with INF) and lazy (filled
    with 0), then buildTree(0, n-1, 1).  The input vector is modelled as
    its size n0 together with its contents map arr. -/
def build (n0 : Nat) (arr : Nat → Int) : SegTree :=
  buildTree { ar := arr, segment_tree := fun _ => INF, lazy := fun _ => 0, n := n0 } 0 (n0 - 1) 1

/-- rangeMin from segment_tree.hpp lines 98-100: query(0, n-1, 1, l, r). -/
def rangeMin (st : SegTree) (l r : Nat) : Int × SegTree :=
  query st 0 (st.n - 1) 1 l r

/-- updateRange from segment_tree.hpp lines 102-104:
    rangeUpdate(1, 0, n-1, l, r, val). -/
def updateRange (st : SegTree) (l r : Nat) (val : Int) : SegTree :=
  rangeUpdate st 1 0 (st.n - 1) l r val

/-- pointUpdate from segment_tree.hpp lines 106-109:
    rangeUpdate(1, 0, n-1, pos, pos, val - ar[pos]); ar[pos] = val. -/
def pointUpdate (st : SegTree) (pos : Nat) (val : Int) : SegTree :=
  let st1 := updateRange st pos pos (val - st.ar pos)
  { st1 with ar := fset st1.ar pos val }

/-- Variant of rangeUpdate considered by the spec's open question: identical
    to rangeUpdateGo except that the entry flush is skipped when the node's
    range has no overlap with the update range (the no-overlap test is made
    before, instead of after, the push). -/
def rangeUpdateSkipGo : Nat → SegTree → Nat → Nat → Nat → Nat → Nat → Int → SegTree
  | 0, st, _, _, _, _, _, _ => st
  | fuel + 1, st, node, start, fin, l, r, val =>
    if start > fin ∨ start > r ∨ fin < l then st
    else
      let st0 := push st node start fin
      if l ≤ start ∧ fin ≤ r then
        push { st0 with lazy := fset st0.lazy node (st0.lazy node + val) } node start fin
      else
        let mid := (start + fin) / 2
        let stL := rangeUpdateSkipGo fuel st0 (2 * node) start mid l r val
        let stR := rangeUpdateSkipGo fuel stL (2 * node + 1) (mid + 1) fin l r val
        { stR with segment_tree := fset stR.segment_tree node (min (stR.segment_tree (2 * node)) (stR.segment_tree (2 * node + 1))) }

/-- Top-level range update built on the skip-flush variant. -/
def updateRangeSkip (st : SegTree) (l r : Nat) (val : Int) : SegTree :=
  rangeUpdateSkipGo (st.n - 1 + 1 - 0) st 1 0 (st.n - 1) l r val

/-! ## Operation language and reference model

A reachable state of the structure is the result of running a sequence of
updateRange / pointUpdate / rangeMin calls on a freshly constructed tree.
The reference model keeps the logical array L (current value of every
index) and the tracked base array A (mirror of the member ar): updateRange
adds its delta to L on the covered range and leaves A alone, pointUpdate
adds (v - A i) to L at i and writes v into A, a query changes nothing. -/

/-- Public operations of the structure. -/
inductive Op where
  | update : Nat → Nat → Int → Op
  | point : Nat → Int → Op
  | qry : Nat → Nat → Op

/-- In-range arguments for an operation on an array of size n. -/
def OpOK (n : Nat) : Op → Prop
  | .update l r _ => l ≤ r ∧ r < n
  | .point i _ => i < n
  | .qry l r => l ≤ r ∧ r < n

instance (n : Nat) (op : Op) : Decidable (OpOK n op) :=
  match op with
  | .update l r _ => inferInstanceAs (Decidable (l ≤ r ∧ r < n))
  | .point i _ => inferInstanceAs (Decidable (i < n))
  | .qry l r => inferInstanceAs (Decidable (l ≤ r ∧ r < n))

/-- Reference model state: logical array and tracked base array. -/
structure Model where
  L : Nat → Int
  A : Nat → Int

/-- One step of the reference model. -/
def stepM (m : Model) : Op → Model
  | .update l r v => { m with L := fun k => if l ≤ k ∧ k ≤ r then m.L k + v else m.L k }
  | .point i v =>
      { L := fun k => if k = i then m.L k + (v - m.A i) else m.L k,
        A := fun k => if k = i then v else m.A k }
  | .qry _ _ => m

/-- One step of the implementation. -/
def stepS (st : SegTree) : Op → SegTree
  | .update l r v => updateRange st l r v
  | .point i v => pointUpdate st i v
  | .qry l r => (rangeMin st l r).2

/-- Run a sequence of operations on the implementation. -/
def runS (st : SegTree) (ops : List Op) : SegTree :=
  ops.foldl stepS st

/-- Run a sequence of operations on the reference model. -/
def runM (m : Model) (ops : List Op) : Model :=
  ops.foldl stepM m

/-- Whether an operation range-updates index k (used to characterise when
    the member ar stays in sync with the logical value at k). -/
def touches : Op → Nat → Prop
  | .update l r _, k => l ≤ k ∧ k ≤ r
  | .point _ _, _ => False
  | .qry _ _, _ => False

instance (op : Op) (k : Nat) : Decidable (touches op k) :=
  match op with
  | .update l r _ => inferInstanceAs (Decidable (l ≤ k ∧ k ≤ r))
  | .point _ _ => inferInstanceAs (Decidable False)
  | .qry _ _ => inferInstanceAs (Decidable False)

/-! ## Specification-side definitions -/

/-- Minimum of f over the range lo .. lo+len (len+1 values). -/
def minRangeGo : Nat → (Nat → Int) → Nat → Int
  | 0, f, lo => f lo
  | len + 1, f, lo => min (f lo) (minRangeGo len f (lo + 1))

/-- Minimum of f over the inclusive range lo .. hi (f lo when hi <= lo):
    the naive O(N) simulation the spec compares queries against. -/
def minRange (f : Nat → Int) (lo hi : Nat) : Int :=
  minRangeGo (hi - lo) f lo

/-- Index j lies in the subtree rooted at node seg under the complete
    binary tree numbering (children of i are 2i and 2i+1). -/
def inTree (seg j : Nat) : Prop :=
  ∃ m, seg * 2 ^ m ≤ j ∧ j < (seg + 1) * 2 ^ m

/-- Value of array index k as represented by the subtree of node seg
    covering interval lo..hi: the stored leaf value plus every pending
    lazy delta on the path from seg to the leaf (fuel-structural). -/
def denoteGo : Nat → SegTree → Nat → Nat → Nat → Nat → Int
  | 0, st, seg, _, _, _ => st.segment_tree seg + st.lazy seg
  | fuel + 1, st, seg, lo, hi, k =>
    if lo < hi then
      st.lazy seg +
        (if k ≤ (lo + hi) / 2 then denoteGo fuel st (2 * seg) lo ((lo + hi) / 2) k
         else denoteGo fuel st (2 * seg + 1) ((lo + hi) / 2 + 1) hi k)
    else st.segment_tree seg + st.lazy seg

/-- Value of index k as represented by the subtree of seg covering lo..hi. -/
def denote (st : SegTree) (seg lo hi k : Nat) : Int :=
  denoteGo (hi - lo) st seg lo hi k

/-- Structural invariant of the subtree of seg covering lo..hi: every
    internal node stores the minimum of its children's settled values
    (child tree value plus child pending lazy delta). -/
def GoodGo : Nat → SegTree → Nat → Nat → Nat → Prop
  | 0, _, _, _, _ => True
  | fuel + 1, st, seg, lo, hi =>
    if lo < hi then
      st.segment_tree seg =
          min (st.segment_tree (2 * seg) + st.lazy (2 * seg))
            (st.segment_tree (2 * seg + 1) + st.lazy (2 * seg + 1))
        ∧ GoodGo fuel st (2 * seg) lo ((lo + hi) / 2)
        ∧ GoodGo fuel st (2 * seg + 1) ((lo + hi) / 2 + 1) hi
    else True

/-- Invariant of the subtree of seg covering lo..hi. -/
def Good (st : SegTree) (seg lo hi : Nat) : Prop :=
  GoodGo (hi - lo) st seg lo hi

/-- Nodes of the tree decomposition over base interval 0..n-1: Spans n s
    lo hi holds when node s represents interval lo..hi. -/
inductive Spans (n : Nat) : Nat → Nat → Nat → Prop where
  | root : Spans n 1 0 (n - 1)
  | left {s lo hi} : Spans n s lo hi → lo < hi → Spans n (2 * s) lo ((lo + hi) / 2)
  | right {s lo hi} : Spans n s lo hi → lo < hi → Spans n (2 * s + 1) ((lo + hi) / 2 + 1) hi

/-- Simulation relation: the tree state st represents model m for size n. -/
def Sim (n : Nat) (st : SegTree) (m : Model) : Prop :=
  st.n = n ∧ Good st 1 0 (n - 1)
    ∧ (∀ k, k < n → denote st 1 0 (n - 1) k = m.L k)
    ∧ (∀ k, st.ar k = m.A k)

/-- Reachability: st is the state and m the model after running ops (all
    with in-range arguments) from a freshly built tree over arr of size n. -/
def Reach (n : Nat) (arr : Nat → Int) (ops : List Op) (st : SegTree) (m : Model) : Prop :=
  1 ≤ n ∧ (∀ op ∈ ops, OpOK n op)
    ∧ st = runS (build n arr) ops ∧ m = runM ⟨arr, arr⟩ ops

/-- Exact answer of rangeMin l r on a tree of size n whose logical array
    is L, as established below: the naive minimum for a full-range query,
    the naive minimum capped by the INF sentinel for a partial in-range
    query, and INF when the query range misses 0..n-1 or is empty. -/
def rmqSpec (n : Nat) (L : Nat → Int) (l r : Nat) : Int :=
  if l ≤ 0 ∧ n - 1 ≤ r then minRange L 0 (n - 1)
  else if l ≤ n - 1 ∧ l ≤ r then min (minRange L l (min (n - 1) r)) INF
  else INF

/-! ## Basic lemmas about fset and push -/

theorem fset_same (f : Nat → Int) (i : Nat) (v : Int) : fset f i v i = v := by
  simp [fset]

theorem fset_other (f : Nat → Int) (i : Nat) (v : Int) {j : Nat} (h : j ≠ i) :
    fset f i v j = f j := by
  simp [fset, h]

theorem push_ar (st : SegTree) (node start fin : Nat) :
    (push st node start fin).ar = st.ar := by
  unfold push
  split
  · split <;> rfl
  · rfl

theorem push_n (st : SegTree) (node start fin : Nat) :
    (push st node start fin).n = st.n := by
  unfold push
  split
  · split <;> rfl
  · rfl

theorem push_tree_self (st : SegTree) (node start fin : Nat) :
    (push st node start fin).segment_tree node = st.segment_tree node + st.lazy node := by
  unfold push
  split
  · split
    · show fset st.segment_tree node (st.segment_tree node + st.lazy node) node = _
      exact fset_same _ _ _
    · show fset st.segment_tree node (st.segment_tree node + st.lazy node) node = _
      exact fset_same _ _ _
  · next h =>
      simp only [ne_eq, not_not] at h
      simp [h]

theorem push_tree_frame (st : SegTree) (node start fin : Nat) {j : Nat} (h : j ≠ node) :
    (push st node start fin).segment_tree j = st.segment_tree j := by
  unfold push
  split
  · split
    · exact fset_other _ _ _ h
    · exact fset_other _ _ _ h
  · rfl

theorem push_lazy_self (st : SegTree) (node start fin : Nat) :
    (push st node start fin).lazy node = 0 := by
  unfold push
  split
  · split
    · exact fset_same _ _ _
    · exact fset_same _ _ _
  · next h =>
      simp only [ne_eq, not_not] at h
      exact h

theorem push_lazy_children (st : SegTree) (node start fin : Nat)
    (hn : 1 ≤ node) (hne : start ≠ fin) :
    (push st node start fin).lazy (2 * node) = st.lazy (2 * node) + st.lazy node
      ∧ (push st node start fin).lazy (2 * node + 1) = st.lazy (2 * node + 1) + st.lazy node := by
  have h1 : 2 * node ≠ node := by omega
  have h2 : 2 * node + 1 ≠ node := by omega
  have h3 : 2 * node ≠ 2 * node + 1 := by omega
  have h4 : 2 * node + 1 ≠ 2 * node := by omega
  have h5 : node ≠ 2 * node := by omega
  have h6 : node ≠ 2 * node + 1 := by omega
  unfold push
  split
  · constructor
    · simp [fset, h1, h3, h4, h5, h6]
    · simp [fset, h2, h3, h4, h5, h6]
  · next h =>
      simp only [ne_eq, not_not] at h
      simp [h]

theorem push_lazy_frame (st : SegTree) (node start fin : Nat) {j : Nat}
    (h0 : j ≠ node) (h1 : j ≠ 2 * node) (h2 : j ≠ 2 * node + 1) :
    (push st node start fin).lazy j = st.lazy j := by
  unfold push
  split
  · split
    · simp [fset, h0, h1, h2]
    · simp [fset, h0]
  all_goals rfl

/-! ## Subtree index arithmetic -/

theorem inTree_self (seg : Nat) : inTree seg seg :=
  ⟨0, by simp⟩

theorem inTree_child_left (seg : Nat) : inTree seg (2 * seg) :=
  ⟨1, by constructor <;> omega⟩

theorem inTree_child_right (seg : Nat) : inTree seg (2 * seg + 1) :=
  ⟨1, by constructor <;> omega⟩

theorem inTree_parent_left {seg j : Nat} (h : inTree (2 * seg) j) : inTree seg j := by
  obtain ⟨m, h1, h2⟩ := h
  refine ⟨m + 1, ?_, ?_⟩
  · calc seg * 2 ^ (m + 1) = 2 * seg * 2 ^ m := by ring
    _ ≤ j := h1
  · calc j < (2 * seg + 1) * 2 ^ m := h2
    _ ≤ (seg + 1) * 2 ^ (m + 1) := by
        have hh : (2 * seg + 1) ≤ (seg + 1) * 2 := by omega
        calc (2 * seg + 1) * 2 ^ m ≤ (seg + 1) * 2 * 2 ^ m := Nat.mul_le_mul_right _ hh
        _ = (seg + 1) * 2 ^ (m + 1) := by ring

theorem inTree_parent_right {seg j : Nat} (h : inTree (2 * seg + 1) j) : inTree seg j := by
  obtain ⟨m, h1, h2⟩ := h
  refine ⟨m + 1, ?_, ?_⟩
  · calc seg * 2 ^ (m + 1) = 2 * seg * 2 ^ m := by ring
    _ ≤ (2 * seg + 1) * 2 ^ m := Nat.mul_le_mul_right _ (by omega)
    _ ≤ j := h1
  · calc j < (2 * seg + 1 + 1) * 2 ^ m := h2
    _ = (seg + 1) * 2 ^ (m + 1) := by ring

theorem not_inTree_left_self {seg : Nat} (h : 1 ≤ seg) : ¬ inTree (2 * seg) seg := by
  rintro ⟨m, h1, h2⟩
  have hp : 1 ≤ 2 ^ m := Nat.one_le_two_pow
  have : 2 * seg ≤ 2 * seg * 2 ^ m := Nat.le_mul_of_pos_right _ (by omega)
  omega

theorem not_inTree_right_self {seg : Nat} (h : 1 ≤ seg) : ¬ inTree (2 * seg + 1) seg := by
  rintro ⟨m, h1, h2⟩
  have hp : 1 ≤ 2 ^ m := Nat.one_le_two_pow
  have : 2 * seg + 1 ≤ (2 * seg + 1) * 2 ^ m := Nat.le_mul_of_pos_right _ (by omega)
  omega

theorem inTree_sibling_disj {seg j : Nat} (h : 1 ≤ seg)
    (hl : inTree (2 * seg) j) (hr : inTree (2 * seg + 1) j) : False := by
  obtain ⟨a, la1, la2⟩ := hl
  obtain ⟨b, lb1, lb2⟩ := hr
  rcases Nat.le_total a b with hab | hba
  · have hpow : (2 : Nat) ^ a ≤ 2 ^ b := Nat.pow_le_pow_right (by omega) hab
    have : (2 * seg + 1) * 2 ^ a ≤ (2 * seg + 1) * 2 ^ b := Nat.mul_le_mul_left _ hpow
    omega
  · rcases Nat.eq_or_lt_of_le hba with hba' | hba'
    · subst hba'
      omega
    · have hs : b + 1 ≤ a := hba'
      have hpow : (2 : Nat) ^ (b + 1) ≤ 2 ^ a := Nat.pow_le_pow_right (by omega) hs
      have h1 : 2 * seg * 2 ^ (b + 1) ≤ 2 * seg * 2 ^ a := Nat.mul_le_mul_left _ hpow
      have h2 : (2 * seg + 1 + 1) * 2 ^ b ≤ 2 * seg * 2 ^ (b + 1) := by
        have hh : (2 * seg + 1 + 1) ≤ 2 * seg * 2 := by omega
        calc (2 * seg + 1 + 1) * 2 ^ b ≤ 2 * seg * 2 * 2 ^ b := Nat.mul_le_mul_right _ hh
        _ = 2 * seg * 2 ^ (b + 1) := by ring
      omega

theorem not_inTree_sibling_lr {seg : Nat} (h : 1 ≤ seg) : ¬ inTree (2 * seg) (2 * seg + 1) :=
  fun hmem => inTree_sibling_disj h hmem (inTree_self _)

theorem not_inTree_sibling_rl {seg : Nat} (h : 1 ≤ seg) : ¬ inTree (2 * seg + 1) (2 * seg) :=
  fun hmem => inTree_sibling_disj h (inTree_self _) hmem

/-! ## Fuel irrelevance and unfolding for denote and Good -/

theorem denoteGo_fuel : ∀ f1 f2 st seg lo hi k, hi - lo ≤ f1 → hi - lo ≤ f2 →
    denoteGo f1 st seg lo hi k = denoteGo f2 st seg lo hi k := by
  intro f1
  induction f1 with
  | zero =>
    intro f2 st seg lo hi k h1 h2
    cases f2 with
    | zero => rfl
    | succ f2 =>
      have hlt : ¬ lo < hi := by omega
      simp [denoteGo, hlt]
  | succ f1 ih =>
    intro f2 st seg lo hi k h1 h2
    cases f2 with
    | zero =>
      have hlt : ¬ lo < hi := by omega
      simp [denoteGo, hlt]
    | succ f2 =>
      by_cases hlt : lo < hi
      · simp only [denoteGo, if_pos hlt]
        congr 1
        by_cases hk : k ≤ (lo + hi) / 2
        · simp only [if_pos hk]
          exact ih f2 st (2 * seg) lo ((lo + hi) / 2) k (by omega) (by omega)
        · simp only [if_neg hk]
          exact ih f2 st (2 * seg + 1) ((lo + hi) / 2 + 1) hi k (by omega) (by omega)
      · simp only [denoteGo, if_neg hlt]

theorem GoodGo_fuel : ∀ f1 f2 st seg lo hi, hi - lo ≤ f1 → hi - lo ≤ f2 →
    (GoodGo f1 st seg lo hi ↔ GoodGo f2 st seg lo hi) := by
  intro f1
  induction f1 with
  | zero =>
    intro f2 st seg lo hi h1 h2
    cases f2 with
    | zero => exact Iff.rfl
    | succ f2 =>
      have hlt : ¬ lo < hi := by omega
      simp [GoodGo, hlt]
  | succ f1 ih =>
    intro f2 st seg lo hi h1 h2
    cases f2 with
    | zero =>
      have hlt : ¬ lo < hi := by omega
      simp [GoodGo, hlt]
    | succ f2 =>
      by_cases hlt : lo < hi
      · simp only [GoodGo, if_pos hlt]
        refine and_congr Iff.rfl (and_congr ?_ ?_)
        · exact ih f2 st (2 * seg) lo ((lo + hi) / 2) (by omega) (by omega)
        · exact ih f2 st (2 * seg + 1) ((lo + hi) / 2 + 1) hi (by omega) (by omega)
      · simp only [GoodGo, if_neg hlt]

theorem denote_leaf (st : SegTree) (seg lo hi k : Nat) (h : hi ≤ lo) :
    denote st seg lo hi k = st.segment_tree seg + st.lazy seg := by
  unfold denote
  have h0 : hi - lo = 0 := by omega
  rw [h0]
  rfl

theorem denote_node (st : SegTree) (seg lo hi k : Nat) (h : lo < hi) :
    denote st seg lo hi k = st.lazy seg +
      (if k ≤ (lo + hi) / 2 then denote st (2 * seg) lo ((lo + hi) / 2) k
       else denote st (2 * seg + 1) ((lo + hi) / 2 + 1) hi k) := by
  conv =>
    lhs
    unfold denote
  obtain ⟨f, hf⟩ : ∃ f, hi - lo = f + 1 := ⟨hi - lo - 1, by omega⟩
  rw [hf]
  simp only [denoteGo, if_pos h]
  congr 1
  by_cases hk : k ≤ (lo + hi) / 2
  · simp only [if_pos hk]
    exact denoteGo_fuel f ((lo + hi) / 2 - lo) st (2 * seg) lo ((lo + hi) / 2) k (by omega) (by omega)
  · simp only [if_neg hk]
    exact denoteGo_fuel f (hi - ((lo + hi) / 2 + 1)) st (2 * seg + 1) ((lo + hi) / 2 + 1) hi k (by omega) (by omega)

theorem Good_leaf (st : SegTree) (seg lo hi : Nat) (h : hi ≤ lo) : Good st seg lo hi := by
  unfold Good
  have h0 : hi - lo = 0 := by omega
  rw [h0]
  trivial

theorem Good_node (st : SegTree) (seg lo hi : Nat) (h : lo < hi) :
    Good st seg lo hi ↔
      (st.segment_tree seg =
          min (st.segment_tree (2 * seg) + st.lazy (2 * seg))
            (st.segment_tree (2 * seg + 1) + st.lazy (2 * seg + 1))
        ∧ Good st (2 * seg) lo ((lo + hi) / 2)
        ∧ Good st (2 * seg + 1) ((lo + hi) / 2 + 1) hi) := by
  conv =>
    lhs
    unfold Good
  obtain ⟨f, hf⟩ : ∃ f, hi - lo = f + 1 := ⟨hi - lo - 1, by omega⟩
  rw [hf]
  simp only [GoodGo, if_pos h]
  refine and_congr Iff.rfl (and_congr ?_ ?_)
  · exact GoodGo_fuel f ((lo + hi) / 2 - lo) st (2 * seg) lo ((lo + hi) / 2) (by omega) (by omega)
  · exact GoodGo_fuel f (hi - ((lo + hi) / 2 + 1)) st (2 * seg + 1) ((lo + hi) / 2 + 1) hi (by omega) (by omega)

/-! ## Congruence: denote and Good only read their subtree -/

theorem denoteGo_congr : ∀ fuel st1 st2 seg lo hi k,
    (∀ j, inTree seg j → st1.segment_tree j = st2.segment_tree j) →
    (∀ j, inTree seg j → st1.lazy j = st2.lazy j) →
    denoteGo fuel st1 seg lo hi k = denoteGo fuel st2 seg lo hi k := by
  intro fuel
  induction fuel with
  | zero =>
    intro st1 st2 seg lo hi k ht hl
    show st1.segment_tree seg + st1.lazy seg = st2.segment_tree seg + st2.lazy seg
    rw [ht seg (inTree_self seg), hl seg (inTree_self seg)]
  | succ fuel ih =>
    intro st1 st2 seg lo hi k ht hl
    by_cases hlt : lo < hi
    · simp only [denoteGo, if_pos hlt]
      rw [hl seg (inTree_self seg)]
      congr 1
      by_cases hk : k ≤ (lo + hi) / 2
      · simp only [if_pos hk]
        exact ih st1 st2 (2 * seg) lo ((lo + hi) / 2) k
          (fun j hj => ht j (inTree_parent_left hj)) (fun j hj => hl j (inTree_parent_left hj))
      · simp only [if_neg hk]
        exact ih st1 st2 (2 * seg + 1) ((lo + hi) / 2 + 1) hi k
          (fun j hj => ht j (inTree_parent_right hj)) (fun j hj => hl j (inTree_parent_right hj))
    · simp only [denoteGo, if_neg hlt]
      rw [ht seg (inTree_self seg), hl seg (inTree_self seg)]

theorem denote_congr (st1 st2 : SegTree) {seg : Nat} (lo hi k : Nat)
    (ht : ∀ j, inTree seg j → st1.segment_tree j = st2.segment_tree j)
    (hl : ∀ j, inTree seg j → st1.lazy j = st2.lazy j) :
    denote st1 seg lo hi k = denote st2 seg lo hi k :=
  denoteGo_congr (hi - lo) st1 st2 seg lo hi k ht hl

theorem GoodGo_congr : ∀ fuel st1 st2 seg lo hi, 1 ≤ seg →
    (∀ j, inTree seg j → st1.segment_tree j = st2.segment_tree j) →
    (∀ j, inTree seg j → j ≠ seg → st1.lazy j = st2.lazy j) →
    (GoodGo fuel st1 seg lo hi ↔ GoodGo fuel st2 seg lo hi) := by
  intro fuel
  induction fuel with
  | zero => intro st1 st2 seg lo hi hs ht hl; exact Iff.rfl
  | succ fuel ih =>
    intro st1 st2 seg lo hi hs ht hl
    by_cases hlt : lo < hi
    · simp only [GoodGo, if_pos hlt]
      have e1 : st1.segment_tree seg = st2.segment_tree seg := ht seg (inTree_self seg)
      have e2 : st1.segment_tree (2 * seg) = st2.segment_tree (2 * seg) :=
        ht _ (inTree_child_left seg)
      have e3 : st1.segment_tree (2 * seg + 1) = st2.segment_tree (2 * seg + 1) :=
        ht _ (inTree_child_right seg)
      have e4 : st1.lazy (2 * seg) = st2.lazy (2 * seg) :=
        hl _ (inTree_child_left seg) (by omega)
      have e5 : st1.lazy (2 * seg + 1) = st2.lazy (2 * seg + 1) :=
        hl _ (inTree_child_right seg) (by omega)
      rw [e1, e2, e3, e4, e5]
      refine and_congr Iff.rfl (and_congr ?_ ?_)
      · refine ih st1 st2 (2 * seg) lo ((lo + hi) / 2) (by omega)
          (fun j hj => ht j (inTree_parent_left hj)) (fun j hj hne => ?_)
        refine hl j (inTree_parent_left hj) (fun he => ?_)
        exact not_inTree_left_self hs (he ▸ hj)
      · refine ih st1 st2 (2 * seg + 1) ((lo + hi) / 2 + 1) hi (by omega)
          (fun j hj => ht j (inTree_parent_right hj)) (fun j hj hne => ?_)
        refine hl j (inTree_parent_right hj) (fun he => ?_)
        exact not_inTree_right_self hs (he ▸ hj)
    · simp only [GoodGo, if_neg hlt]

theorem Good_congr (st1 st2 : SegTree) {seg : Nat} (lo hi : Nat) (hs : 1 ≤ seg)
    (ht : ∀ j, inTree seg j → st1.segment_tree j = st2.segment_tree j)
    (hl : ∀ j, inTree seg j → j ≠ seg → st1.lazy j = st2.lazy j) :
    Good st1 seg lo hi ↔ Good st2 seg lo hi :=
  GoodGo_congr (hi - lo) st1 st2 seg lo hi hs ht hl

/-! ## Effect of push on denote and Good -/

theorem push_eq_self {st : SegTree} {node : Nat} (start fin : Nat) (hz : st.lazy node = 0) :
    push st node start fin = st := by
  unfold push
  simp [hz]

theorem denote_addTop (st : SegTree) {seg : Nat} (lo hi k : Nat) (h : 1 ≤ seg) (d : Int) :
    denote { st with lazy := fset st.lazy seg (st.lazy seg + d) } seg lo hi k
      = denote st seg lo hi k + d := by
  by_cases hlt : lo < hi
  · rw [denote_node _ _ _ _ _ hlt, denote_node _ _ _ _ _ hlt]
    have hsl : ({ st with lazy := fset st.lazy seg (st.lazy seg + d) } : SegTree).lazy seg
        = st.lazy seg + d := fset_same _ _ _
    rw [hsl]
    have hcl : denote { st with lazy := fset st.lazy seg (st.lazy seg + d) } (2 * seg) lo ((lo + hi) / 2) k
        = denote st (2 * seg) lo ((lo + hi) / 2) k := by
      refine denote_congr _ _ _ _ _ (fun j hj => rfl) (fun j hj => ?_)
      have hne : j ≠ seg := fun he => not_inTree_left_self h (he ▸ hj)
      exact fset_other _ _ _ hne
    have hcr : denote { st with lazy := fset st.lazy seg (st.lazy seg + d) } (2 * seg + 1) ((lo + hi) / 2 + 1) hi k
        = denote st (2 * seg + 1) ((lo + hi) / 2 + 1) hi k := by
      refine denote_congr _ _ _ _ _ (fun j hj => rfl) (fun j hj => ?_)
      have hne : j ≠ seg := fun he => not_inTree_right_self h (he ▸ hj)
      exact fset_other _ _ _ hne
    rw [hcl, hcr]
    by_cases hk : k ≤ (lo + hi) / 2
    · simp only [if_pos hk]
      ring
    · simp only [if_neg hk]
      ring
  · rw [denote_leaf _ _ _ _ _ (by omega), denote_leaf _ _ _ _ _ (by omega)]
    show st.segment_tree seg + fset st.lazy seg (st.lazy seg + d) seg = _
    rw [fset_same]
    ring

theorem push_denote {st : SegTree} {seg : Nat} (lo hi k : Nat) (h : 1 ≤ seg) :
    denote (push st seg lo hi) seg lo hi k = denote st seg lo hi k := by
  by_cases hz : st.lazy seg = 0
  · rw [push_eq_self lo hi hz]
  · by_cases hlt : lo < hi
    · have hne : lo ≠ hi := by omega
      rw [denote_node _ _ _ _ _ hlt, denote_node _ _ _ _ _ hlt]
      rw [push_lazy_self]
      have hchL : denote (push st seg lo hi) (2 * seg) lo ((lo + hi) / 2) k
          = denote st (2 * seg) lo ((lo + hi) / 2) k + st.lazy seg := by
        have step1 : denote (push st seg lo hi) (2 * seg) lo ((lo + hi) / 2) k
            = denote { st with lazy := fset st.lazy (2 * seg) (st.lazy (2 * seg) + st.lazy seg) }
                (2 * seg) lo ((lo + hi) / 2) k := by
          refine denote_congr _ _ _ _ _ (fun j hj => ?_) (fun j hj => ?_)
          · have hj1 : j ≠ seg := fun he => not_inTree_left_self h (he ▸ hj)
            rw [push_tree_frame st seg lo hi hj1]
          · have hj1 : j ≠ seg := fun he => not_inTree_left_self h (he ▸ hj)
            by_cases hj2 : j = 2 * seg
            · subst hj2
              rw [(push_lazy_children st seg lo hi h hne).1]
              simp [fset]
            · have hj3 : j ≠ 2 * seg + 1 := fun he => not_inTree_sibling_lr h (he ▸ hj)
              rw [push_lazy_frame st seg lo hi hj1 hj2 hj3]
              simp [fset, hj2]
        rw [step1]
        exact denote_addTop st lo ((lo + hi) / 2) k (by omega) (st.lazy seg)
      have hchR : denote (push st seg lo hi) (2 * seg + 1) ((lo + hi) / 2 + 1) hi k
          = denote st (2 * seg + 1) ((lo + hi) / 2 + 1) hi k + st.lazy seg := by
        have step1 : denote (push st seg lo hi) (2 * seg + 1) ((lo + hi) / 2 + 1) hi k
            = denote { st with lazy := fset st.lazy (2 * seg + 1) (st.lazy (2 * seg + 1) + st.lazy seg) }
                (2 * seg + 1) ((lo + hi) / 2 + 1) hi k := by
          refine denote_congr _ _ _ _ _ (fun j hj => ?_) (fun j hj => ?_)
          · have hj1 : j ≠ seg := fun he => not_inTree_right_self h (he ▸ hj)
            rw [push_tree_frame st seg lo hi hj1]
          · have hj1 : j ≠ seg := fun he => not_inTree_right_self h (he ▸ hj)
            by_cases hj2 : j = 2 * seg + 1
            · subst hj2
              rw [(push_lazy_children st seg lo hi h hne).2]
              simp [fset]
            · have hj3 : j ≠ 2 * seg := fun he => not_inTree_sibling_rl h (he ▸ hj)
              rw [push_lazy_frame st seg lo hi hj1 hj3 hj2]
              simp [fset, hj2]
        rw [step1]
        exact denote_addTop st ((lo + hi) / 2 + 1) hi k (by omega) (st.lazy seg)
      rw [hchL, hchR]
      by_cases hk : k ≤ (lo + hi) / 2
      · simp only [if_pos hk]
        ring
      · simp only [if_neg hk]
        ring
    · rw [denote_leaf _ _ _ _ _ (by omega), denote_leaf _ _ _ _ _ (by omega)]
      rw [push_tree_self, push_lazy_self]
      ring

theorem push_Good {st : SegTree} {seg : Nat} (lo hi : Nat) (h : 1 ≤ seg)
    (hG : Good st seg lo hi) : Good (push st seg lo hi) seg lo hi := by
  by_cases hlt : lo < hi
  · by_cases hz : st.lazy seg = 0
    · rw [push_eq_self lo hi hz]
      exact hG
    · have hne : lo ≠ hi := by omega
      rw [Good_node _ _ _ _ hlt] at hG ⊢
      obtain ⟨hhead, hGL, hGR⟩ := hG
      have c2 : (2 * seg : Nat) ≠ seg := by omega
      have c3 : (2 * seg + 1 : Nat) ≠ seg := by omega
      refine ⟨?_, ?_, ?_⟩
      · rw [push_tree_self, push_tree_frame st seg lo hi c2, push_tree_frame st seg lo hi c3]
        rw [(push_lazy_children st seg lo hi h hne).1, (push_lazy_children st seg lo hi h hne).2]
        rw [hhead, ← min_add_add_right]
        congr 1 <;> ring
      · have hiff : Good (push st seg lo hi) (2 * seg) lo ((lo + hi) / 2)
            ↔ Good st (2 * seg) lo ((lo + hi) / 2) := by
          refine Good_congr _ _ _ _ (by omega) (fun j hj => ?_) (fun j hj hjne => ?_)
          · have hj1 : j ≠ seg := fun he => not_inTree_left_self h (he ▸ hj)
            exact push_tree_frame st seg lo hi hj1
          · have hj1 : j ≠ seg := fun he => not_inTree_left_self h (he ▸ hj)
            have hj3 : j ≠ 2 * seg + 1 := fun he => not_inTree_sibling_lr h (he ▸ hj)
            exact push_lazy_frame st seg lo hi hj1 hjne hj3
        exact hiff.mpr hGL
      · have hiff : Good (push st seg lo hi) (2 * seg + 1) ((lo + hi) / 2 + 1) hi
            ↔ Good st (2 * seg + 1) ((lo + hi) / 2 + 1) hi := by
          refine Good_congr _ _ _ _ (by omega) (fun j hj => ?_) (fun j hj hjne => ?_)
          · have hj1 : j ≠ seg := fun he => not_inTree_right_self h (he ▸ hj)
            exact push_tree_frame st seg lo hi hj1
          · have hj1 : j ≠ seg := fun he => not_inTree_right_self h (he ▸ hj)
            have hj3 : j ≠ 2 * seg := fun he => not_inTree_sibling_rl h (he ▸ hj)
            exact push_lazy_frame st seg lo hi hj1 hj3 hjne
        exact hiff.mpr hGR
  · exact Good_leaf _ _ _ _ (by omega)

/-! ## Lemmas about minRange -/

theorem minRange_single (f : Nat → Int) (lo : Nat) : minRange f lo lo = f lo := by
  unfold minRange
  rw [Nat.sub_self]
  rfl

theorem minRange_cons (f : Nat → Int) {lo hi : Nat} (h : lo < hi) :
    minRange f lo hi = min (f lo) (minRange f (lo + 1) hi) := by
  unfold minRange
  obtain ⟨d, hd⟩ : ∃ d, hi - lo = d + 1 := ⟨hi - lo - 1, by omega⟩
  rw [hd]
  show min (f lo) (minRangeGo d f (lo + 1)) = _
  have hd2 : hi - (lo + 1) = d := by omega
  rw [hd2]

theorem minRange_congr {f g : Nat → Int} {lo hi : Nat} (hle : lo ≤ hi)
    (h : ∀ k, lo ≤ k → k ≤ hi → f k = g k) : minRange f lo hi = minRange g lo hi := by
  unfold minRange
  obtain ⟨d, hd⟩ : ∃ d, hi - lo = d := ⟨hi - lo, rfl⟩
  rw [hd]
  have hcov : ∀ k, lo ≤ k → k ≤ lo + d → f k = g k := fun k h1 h2 => h k h1 (by omega)
  clear hd h hle
  induction d generalizing lo with
  | zero => exact hcov lo (le_refl _) (by omega)
  | succ d ih =>
    show min (f lo) (minRangeGo d f (lo + 1)) = min (g lo) (minRangeGo d g (lo + 1))
    rw [hcov lo (le_refl _) (by omega), ih (fun k h1 h2 => hcov k (by omega) (by omega))]

theorem minRange_split (f : Nat → Int) : ∀ d lo mid hi, mid - lo = d → lo ≤ mid → mid < hi →
    minRange f lo hi = min (minRange f lo mid) (minRange f (mid + 1) hi) := by
  intro d
  induction d with
  | zero =>
    intro lo mid hi hd h1 h2
    have he : lo = mid := by omega
    subst he
    rw [minRange_cons f (by omega), minRange_single]
  | succ d ih =>
    intro lo mid hi hd h1 h2
    have hlm : lo < mid := by omega
    rw [minRange_cons f (by omega : lo < hi), ih (lo + 1) mid hi (by omega) (by omega) h2,
      minRange_cons f hlm, min_assoc]

theorem minRange_addConst (c : Int) (f : Nat → Int) (lo hi : Nat) :
    minRange (fun k => c + f k) lo hi = c + minRange f lo hi := by
  unfold minRange
  obtain ⟨d, hd⟩ : ∃ d, hi - lo = d := ⟨hi - lo, rfl⟩
  rw [hd]
  clear hd
  induction d generalizing lo with
  | zero => rfl
  | succ d ih =>
    show min (c + f lo) (minRangeGo d (fun k => c + f k) (lo + 1)) = _
    rw [ih (lo + 1)]
    exact min_add_add_left c (f lo) (minRangeGo d f (lo + 1))

theorem min_add_left (a b c : Int) : min a b + c = min (c + a) (c + b) := by
  rcases le_total a b with h | h
  · rw [min_eq_left h, min_eq_left (by linarith)]
    ring
  · rw [min_eq_right h, min_eq_right (by linarith)]
    ring

theorem minRange_le {f : Nat → Int} : ∀ d lo k, lo ≤ k → k ≤ lo + d →
    minRangeGo d f lo ≤ f k := by
  intro d
  induction d with
  | zero =>
    intro lo k h1 h2
    have : k = lo := by omega
    subst this
    exact le_refl _
  | succ d ih =>
    intro lo k h1 h2
    show min (f lo) (minRangeGo d f (lo + 1)) ≤ f k
    by_cases hk : k = lo
    · subst hk
      exact min_le_left _ _
    · exact le_trans (min_le_right _ _) (ih (lo + 1) k (by omega) (by omega))

/-! ## Good implies the stored value is the subtree minimum -/

theorem good_min : ∀ fuel st seg lo hi, lo ≤ hi → hi - lo < fuel → Good st seg lo hi →
    st.segment_tree seg + st.lazy seg = minRange (denote st seg lo hi) lo hi := by
  intro fuel
  induction fuel with
  | zero =>
    intro st seg lo hi hle hfu hG
    omega
  | succ fuel ih =>
    intro st seg lo hi hle hfu hG
    by_cases hlt : lo < hi
    · rw [Good_node _ _ _ _ hlt] at hG
      obtain ⟨hhead, hGL, hGR⟩ := hG
      have hL := ih st (2 * seg) lo ((lo + hi) / 2) (by omega) (by omega) hGL
      have hR := ih st (2 * seg + 1) ((lo + hi) / 2 + 1) hi (by omega) (by omega) hGR
      rw [minRange_split (denote st seg lo hi) ((lo + hi) / 2 - lo) lo ((lo + hi) / 2) hi rfl
        (by omega) (by omega)]
      have eL : minRange (denote st seg lo hi) lo ((lo + hi) / 2)
          = st.lazy seg + minRange (denote st (2 * seg) lo ((lo + hi) / 2)) lo ((lo + hi) / 2) := by
        have hpt : ∀ k, lo ≤ k → k ≤ (lo + hi) / 2 →
            denote st seg lo hi k = st.lazy seg + denote st (2 * seg) lo ((lo + hi) / 2) k := by
          intro k h1 h2
          rw [denote_node _ _ _ _ _ hlt, if_pos h2]
        rw [minRange_congr (by omega) hpt, minRange_addConst]
      have eR : minRange (denote st seg lo hi) ((lo + hi) / 2 + 1) hi
          = st.lazy seg + minRange (denote st (2 * seg + 1) ((lo + hi) / 2 + 1) hi) ((lo + hi) / 2 + 1) hi := by
        have hpt : ∀ k, (lo + hi) / 2 + 1 ≤ k → k ≤ hi →
            denote st seg lo hi k = st.lazy seg + denote st (2 * seg + 1) ((lo + hi) / 2 + 1) hi k := by
          intro k h1 h2
          rw [denote_node _ _ _ _ _ hlt, if_neg (by omega)]
        rw [minRange_congr (by omega) hpt, minRange_addConst]
      rw [eL, eR, ← hL, ← hR, hhead]
      exact min_add_left _ _ _
    · have he : lo = hi := by omega
      subst he
      rw [minRange_single, denote_leaf _ _ _ _ _ (le_refl lo)]

/-! ## Frame lemmas: the operations never touch ar or n, and write the
tree and lazy arrays only inside the subtree of the node they start at -/

theorem push_outside {st : SegTree} {node : Nat} (start fin : Nat) {j : Nat}
    (h : ¬ inTree node j) :
    (push st node start fin).segment_tree j = st.segment_tree j
      ∧ (push st node start fin).lazy j = st.lazy j := by
  have h0 : j ≠ node := fun he => h (he ▸ inTree_self node)
  have h1 : j ≠ 2 * node := fun he => h (he ▸ inTree_child_left node)
  have h2 : j ≠ 2 * node + 1 := fun he => h (he ▸ inTree_child_right node)
  exact ⟨push_tree_frame st node start fin h0, push_lazy_frame st node start fin h0 h1 h2⟩

theorem rangeUpdateGo_ar : ∀ fuel st node start fin l r v,
    (rangeUpdateGo fuel st node start fin l r v).ar = st.ar
      ∧ (rangeUpdateGo fuel st node start fin l r v).n = st.n := by
  intro fuel
  induction fuel with
  | zero => intro st node start fin l r v; exact ⟨rfl, rfl⟩
  | succ fuel ih =>
    intro st node start fin l r v
    simp only [rangeUpdateGo]
    split_ifs with h1 h2 <;> simp [ih, push_ar, push_n]

theorem queryGo_ar : ∀ fuel st start fin seg qs qe,
    (queryGo fuel st start fin seg qs qe).2.ar = st.ar
      ∧ (queryGo fuel st start fin seg qs qe).2.n = st.n := by
  intro fuel
  induction fuel with
  | zero => intro st start fin seg qs qe; exact ⟨rfl, rfl⟩
  | succ fuel ih =>
    intro st start fin seg qs qe
    simp only [queryGo]
    split_ifs with h1 h2 <;> simp [ih, push_ar, push_n]

theorem buildTreeGo_ar : ∀ fuel st start fin seg,
    (buildTreeGo fuel st start fin seg).ar = st.ar
      ∧ (buildTreeGo fuel st start fin seg).n = st.n
      ∧ (buildTreeGo fuel st start fin seg).lazy = st.lazy := by
  intro fuel
  induction fuel with
  | zero => intro st start fin seg; exact ⟨rfl, rfl, rfl⟩
  | succ fuel ih =>
    intro st start fin seg
    simp only [buildTreeGo]
    split_ifs with h1 <;> simp [ih]

theorem rangeUpdateGo_outside : ∀ fuel st node start fin l r v j, ¬ inTree node j →
    (rangeUpdateGo fuel st node start fin l r v).segment_tree j = st.segment_tree j
      ∧ (rangeUpdateGo fuel st node start fin l r v).lazy j = st.lazy j := by
  intro fuel
  induction fuel with
  | zero => intro st node start fin l r v j h; exact ⟨rfl, rfl⟩
  | succ fuel ih =>
    intro st node start fin l r v j h
    have h0 : j ≠ node := fun he => h (he ▸ inTree_self node)
    have hL : ¬ inTree (2 * node) j := fun hmem => h (inTree_parent_left hmem)
    have hR : ¬ inTree (2 * node + 1) j := fun hmem => h (inTree_parent_right hmem)
    simp only [rangeUpdateGo]
    split_ifs with h1 h2
    · exact push_outside start fin h
    · constructor
      · rw [(push_outside start fin h).1]
        show (push st node start fin).segment_tree j = _
        exact (push_outside start fin h).1
      · rw [(push_outside start fin h).2]
        show fset (push st node start fin).lazy node _ j = _
        rw [fset_other _ _ _ h0]
        exact (push_outside start fin h).2
    · have eR := ih (rangeUpdateGo fuel (push st node start fin) (2 * node) start ((start + fin) / 2) l r v)
        (2 * node + 1) ((start + fin) / 2 + 1) fin l r v j hR
      have eL := ih (push st node start fin) (2 * node) start ((start + fin) / 2) l r v j hL
      have eP := @push_outside st node start fin j h
      constructor
      · show fset _ node _ j = _
        rw [fset_other _ _ _ h0, eR.1, eL.1, eP.1]
      · show (rangeUpdateGo fuel _ (2 * node + 1) _ fin l r v).lazy j = _
        rw [eR.2, eL.2, eP.2]

theorem queryGo_outside : ∀ fuel st start fin seg qs qe j, ¬ inTree seg j →
    (queryGo fuel st start fin seg qs qe).2.segment_tree j = st.segment_tree j
      ∧ (queryGo fuel st start fin seg qs qe).2.lazy j = st.lazy j := by
  intro fuel
  induction fuel with
  | zero => intro st start fin seg qs qe j h; exact ⟨rfl, rfl⟩
  | succ fuel ih =>
    intro st start fin seg qs qe j h
    have hL : ¬ inTree (2 * seg) j := fun hmem => h (inTree_parent_left hmem)
    have hR : ¬ inTree (2 * seg + 1) j := fun hmem => h (inTree_parent_right hmem)
    simp only [queryGo]
    split_ifs with h1 h2
    · exact push_outside start fin h
    · exact push_outside start fin h
    · have eL := ih (push st seg start fin) start ((start + fin) / 2) (2 * seg) qs qe j hL
      have eR := ih (queryGo fuel (push st seg start fin) start ((start + fin) / 2) (2 * seg) qs qe).2
        ((start + fin) / 2 + 1) fin (2 * seg + 1) qs qe j hR
      have eP := @push_outside st seg start fin j h
      exact ⟨by rw [eR.1, eL.1, eP.1], by rw [eR.2, eL.2, eP.2]⟩

theorem buildTreeGo_outside : ∀ fuel st start fin seg j, ¬ inTree seg j →
    (buildTreeGo fuel st start fin seg).segment_tree j = st.segment_tree j := by
  intro fuel
  induction fuel with
  | zero => intro st start fin seg j h; rfl
  | succ fuel ih =>
    intro st start fin seg j h
    have h0 : j ≠ seg := fun he => h (he ▸ inTree_self seg)
    have hL : ¬ inTree (2 * seg) j := fun hmem => h (inTree_parent_left hmem)
    have hR : ¬ inTree (2 * seg + 1) j := fun hmem => h (inTree_parent_right hmem)
    simp only [buildTreeGo]
    split_ifs with h1
    · show fset st.segment_tree seg _ j = _
      exact fset_other _ _ _ h0
    · show fset _ seg _ j = _
      rw [fset_other _ _ _ h0]
      rw [ih _ ((start + fin) / 2 + 1) fin (2 * seg + 1) j hR]
      exact ih _ start ((start + fin) / 2) (2 * seg) j hL


/-! ## Main simulation lemma for rangeUpdate -/

theorem denote_set_tree_outside (st : SegTree) (i : Nat) (v : Int) {seg : Nat} (lo hi k : Nat)
    (hout : ¬ inTree seg i) :
    denote { ar := st.ar, segment_tree := fset st.segment_tree i v, lazy := st.lazy, n := st.n }
      seg lo hi k = denote st seg lo hi k :=
  denote_congr { ar := st.ar, segment_tree := fset st.segment_tree i v, lazy := st.lazy, n := st.n }
    st lo hi k (fun j hj => fset_other _ _ _ (fun he => hout (he ▸ hj))) (fun j hj => rfl)

theorem Good_set_tree_outside (st : SegTree) (i : Nat) (v : Int) {seg : Nat} (lo hi : Nat)
    (hs : 1 ≤ seg) (hout : ¬ inTree seg i) (hG : Good st seg lo hi) :
    Good { ar := st.ar, segment_tree := fset st.segment_tree i v, lazy := st.lazy, n := st.n }
      seg lo hi :=
  (Good_congr { ar := st.ar, segment_tree := fset st.segment_tree i v, lazy := st.lazy, n := st.n }
    st lo hi hs (fun j hj => fset_other _ _ _ (fun he => hout (he ▸ hj)))
    (fun j hj hne => rfl)).mpr hG

theorem rangeUpdateGo_spec : ∀ fuel st seg start fin l r v,
    1 ≤ seg → start ≤ fin → fin - start < fuel → Good st seg start fin →
    ((rangeUpdateGo fuel st seg start fin l r v).lazy seg = 0
      ∧ Good (rangeUpdateGo fuel st seg start fin l r v) seg start fin
      ∧ (∀ k, start ≤ k → k ≤ fin →
          denote (rangeUpdateGo fuel st seg start fin l r v) seg start fin k
            = denote st seg start fin k + (if l ≤ k ∧ k ≤ r then v else 0))) := by
  intro fuel
  induction fuel with
  | zero =>
    intro st seg start fin l r v hseg hle hfu hG
    omega
  | succ fuel ih =>
    intro st seg start fin l r v hseg hle hfu hG
    simp only [rangeUpdateGo]
    split_ifs with hd hf
    · refine ⟨push_lazy_self _ _ _ _, push_Good _ _ hseg hG, ?_⟩
      intro k hk1 hk2
      rw [push_denote _ _ _ hseg]
      rw [if_neg (by omega)]
      ring
    · have hG0 : Good (push st seg start fin) seg start fin := push_Good _ _ hseg hG
      have hG1 : Good { push st seg start fin with
          lazy := fset (push st seg start fin).lazy seg ((push st seg start fin).lazy seg + v) }
          seg start fin := by
        refine (Good_congr
          { push st seg start fin with
            lazy := fset (push st seg start fin).lazy seg ((push st seg start fin).lazy seg + v) }
          (push st seg start fin) start fin hseg (fun j hj => rfl) (fun j hj hne => ?_)).mpr hG0
        exact fset_other _ _ _ hne
      refine ⟨push_lazy_self _ _ _ _, push_Good _ _ hseg hG1, ?_⟩
      intro k hk1 hk2
      rw [push_denote _ _ _ hseg, denote_addTop (push st seg start fin) start fin k hseg v,
        push_denote _ _ _ hseg, if_pos ⟨by omega, by omega⟩]
    · have hsf : start < fin := by omega
      have hG0 : Good (push st seg start fin) seg start fin := push_Good _ _ hseg hG
      have hz0 : (push st seg start fin).lazy seg = 0 := push_lazy_self _ _ _ _
      rw [Good_node _ _ _ _ hsf] at hG0
      obtain ⟨hhead0, hGL0, hGR0⟩ := hG0
      set st0 := push st seg start fin with hst0
      set stL := rangeUpdateGo fuel st0 (2 * seg) start ((start + fin) / 2) l r v with hstL
      set stR := rangeUpdateGo fuel stL (2 * seg + 1) ((start + fin) / 2 + 1) fin l r v with hstR
      obtain ⟨hzL, hGL1, hdL⟩ :=
        ih st0 (2 * seg) start ((start + fin) / 2) l r v (by omega) (by omega) (by omega) hGL0
      rw [← hstL] at hzL hGL1 hdL
      have hfrL : ∀ j, inTree (2 * seg + 1) j →
          stL.segment_tree j = st0.segment_tree j ∧ stL.lazy j = st0.lazy j := by
        intro j hj
        rw [hstL]
        exact rangeUpdateGo_outside fuel st0 (2 * seg) start ((start + fin) / 2) l r v j
          (fun hm => inTree_sibling_disj hseg hm hj)
      have hGR1 : Good stL (2 * seg + 1) ((start + fin) / 2 + 1) fin :=
        (Good_congr stL st0 ((start + fin) / 2 + 1) fin (by omega) (fun j hj => (hfrL j hj).1)
          (fun j hj hne => (hfrL j hj).2)).mpr hGR0
      obtain ⟨hzR, hGR2, hdR⟩ :=
        ih stL (2 * seg + 1) ((start + fin) / 2 + 1) fin l r v (by omega) (by omega) (by omega) hGR1
      rw [← hstR] at hzR hGR2 hdR
      have hfrR : ∀ j, inTree (2 * seg) j →
          stR.segment_tree j = stL.segment_tree j ∧ stR.lazy j = stL.lazy j := by
        intro j hj
        rw [hstR]
        exact rangeUpdateGo_outside fuel stL (2 * seg + 1) ((start + fin) / 2 + 1) fin l r v j
          (fun hm => inTree_sibling_disj hseg hj hm)
      have hLseg : stL.lazy seg = st0.lazy seg := by
        rw [hstL]
        exact (rangeUpdateGo_outside fuel st0 (2 * seg) start ((start + fin) / 2) l r v seg
          (not_inTree_left_self hseg)).2
      have hRseg : stR.lazy seg = stL.lazy seg := by
        rw [hstR]
        exact (rangeUpdateGo_outside fuel stL (2 * seg + 1) ((start + fin) / 2 + 1) fin l r v seg
          (not_inTree_right_self hseg)).2
      have c2 : (2 * seg : Nat) ≠ seg := by omega
      have c3 : (2 * seg + 1 : Nat) ≠ seg := by omega
      have hGL2 : Good stR (2 * seg) start ((start + fin) / 2) :=
        (Good_congr stR stL start ((start + fin) / 2) (by omega) (fun j hj => (hfrR j hj).1)
          (fun j hj hne => (hfrR j hj).2)).mpr hGL1
      have hlzF : stR.lazy seg = 0 := by
        rw [hRseg, hLseg, hz0]
      refine ⟨?_, ?_, ?_⟩
      · show stR.lazy seg = 0
        exact hlzF
      · rw [Good_node _ _ _ _ hsf]
        dsimp only
        refine ⟨?_, ?_, ?_⟩
        · rw [fset_same, fset_other _ _ _ c2, fset_other _ _ _ c3]
          rw [(hfrR (2 * seg) (inTree_self _)).2, hzL, hzR]
          simp
        · exact Good_set_tree_outside stR seg _ start ((start + fin) / 2) (by omega)
            (not_inTree_left_self hseg) hGL2
        · exact Good_set_tree_outside stR seg _ ((start + fin) / 2 + 1) fin (by omega)
            (not_inTree_right_self hseg) hGR2
      · intro k hk1 hk2
        rw [denote_node _ _ _ _ _ hsf]
        have hds : denote st seg start fin k = denote st0 seg start fin k := by
          rw [hst0, push_denote _ _ _ hseg]
        rw [hds, denote_node st0 _ _ _ _ hsf, hz0]
        dsimp only
        rw [hlzF]
        have e2 : denote stR (2 * seg) start ((start + fin) / 2) k
            = denote stL (2 * seg) start ((start + fin) / 2) k :=
          denote_congr stR stL start ((start + fin) / 2) k
            (fun j hj => (hfrR j hj).1) (fun j hj => (hfrR j hj).2)
        have e3 : denote stL (2 * seg + 1) ((start + fin) / 2 + 1) fin k
            = denote st0 (2 * seg + 1) ((start + fin) / 2 + 1) fin k :=
          denote_congr stL st0 ((start + fin) / 2 + 1) fin k
            (fun j hj => (hfrL j hj).1) (fun j hj => (hfrL j hj).2)
        by_cases hk : k ≤ (start + fin) / 2
        · rw [if_pos hk, if_pos hk,
            denote_set_tree_outside stR seg _ start ((start + fin) / 2) k (not_inTree_left_self hseg),
            e2, hdL k (by omega) (by omega)]
          ring
        · rw [if_neg hk, if_neg hk,
            denote_set_tree_outside stR seg _ ((start + fin) / 2 + 1) fin k (not_inTree_right_self hseg),
            hdR k (by omega) (by omega), e3]
          ring

/-! ## Pure recursion computing the value returned by query -/

/-- Value returned by query on a subtree covering start..fin whose settled
    values are D, written as a pure recursion mirroring the query code. -/
def qspec : Nat → (Nat → Int) → Nat → Nat → Nat → Nat → Int
  | 0, _, _, _, _, _ => INF
  | fuel + 1, D, start, fin, qs, qe =>
    if qe < start ∨ qs > fin then INF
    else if qs ≤ start ∧ fin ≤ qe then minRange D start fin
    else
      min (qspec fuel D start ((start + fin) / 2) qs qe)
        (qspec fuel D ((start + fin) / 2 + 1) fin qs qe)

theorem qspec_congr : ∀ fuel D1 D2 start fin qs qe, start ≤ fin →
    (∀ k, start ≤ k → k ≤ fin → D1 k = D2 k) →
    qspec fuel D1 start fin qs qe = qspec fuel D2 start fin qs qe := by
  intro fuel
  induction fuel with
  | zero => intro D1 D2 start fin qs qe hle h; rfl
  | succ fuel ih =>
    intro D1 D2 start fin qs qe hle h
    simp only [qspec]
    split_ifs with hout hfull
    · rfl
    · exact minRange_congr hle h
    · have hsf : start < fin := by omega
      rw [ih D1 D2 start ((start + fin) / 2) qs qe (by omega)
          (fun k h1 h2 => h k h1 (by omega)),
        ih D1 D2 ((start + fin) / 2 + 1) fin qs qe (by omega)
          (fun k h1 h2 => h k (by omega) h2)]

theorem min_min_INF (x y : Int) : min (min x INF) (min y INF) = min (min x y) INF := by
  rw [min_min_min_comm, min_self]

/-- Closed form of qspec: full cover gives the exact minimum, any other
    overlapping query is capped by the INF sentinel, no overlap gives INF. -/
theorem qspec_eq : ∀ fuel D start fin qs qe, start ≤ fin → fin - start < fuel →
    qspec fuel D start fin qs qe =
      (if qs ≤ start ∧ fin ≤ qe then minRange D start fin
       else if start ≤ qe ∧ qs ≤ fin ∧ qs ≤ qe then
         min (minRange D (max start qs) (min fin qe)) INF
       else INF) := by
  intro fuel
  induction fuel with
  | zero => intro D start fin qs qe h1 h2; omega
  | succ fuel ih =>
    intro D start fin qs qe hle hfu
    simp only [qspec]
    by_cases hout : qe < start ∨ qs > fin
    · rw [if_pos hout, if_neg (by omega), if_neg (by omega)]
    · by_cases hfull : qs ≤ start ∧ fin ≤ qe
      · rw [if_neg hout, if_pos hfull, if_pos hfull]
      · rw [if_neg hout, if_neg hfull, if_neg hfull]
        have hsf : start < fin := by omega
        rw [ih D start ((start + fin) / 2) qs qe (by omega) (by omega),
          ih D ((start + fin) / 2 + 1) fin qs qe (by omega) (by omega)]
        by_cases hq : qs ≤ qe
        · by_cases hqe : qe ≤ (start + fin) / 2
          · -- query range lies inside the left half
            by_cases hqs : qs ≤ start
            · by_cases hqm : (start + fin) / 2 ≤ qe
              · rw [if_pos (by omega), if_neg (by omega), if_neg (by omega), if_pos (by omega)]
                rw [(by omega : max start qs = start), (by omega : min fin qe = (start + fin) / 2)]
              · rw [if_neg (by omega), if_pos (by omega), if_neg (by omega), if_neg (by omega),
                  if_pos (by omega)]
                rw [(by omega : max start qs = start), (by omega : min ((start + fin) / 2) qe = qe),
                  (by omega : min fin qe = qe), min_assoc, min_self]
            · rw [if_neg (by omega), if_pos (by omega), if_neg (by omega), if_neg (by omega),
                if_pos (by omega)]
              rw [(by omega : max start qs = qs), (by omega : min ((start + fin) / 2) qe = qe),
                (by omega : min fin qe = qe), min_assoc, min_self]
          · by_cases hqs2 : (start + fin) / 2 < qs
            · -- query range lies inside the right half
              by_cases hfe : fin ≤ qe
              · by_cases hq1 : qs ≤ (start + fin) / 2 + 1
                · rw [if_neg (by omega), if_neg (by omega), if_pos (by omega), if_pos (by omega)]
                  rw [(by omega : max start qs = (start + fin) / 2 + 1),
                    (by omega : min fin qe = fin)]
                  exact min_comm _ _
                · rw [if_neg (by omega), if_neg (by omega), if_neg (by omega), if_pos (by omega),
                    if_pos (by omega)]
                  rw [(by omega : max ((start + fin) / 2 + 1) qs = qs),
                    (by omega : min fin qe = fin), (by omega : max start qs = qs),
                    min_comm, min_assoc, min_self]
              · rw [if_neg (by omega), if_neg (by omega), if_neg (by omega), if_pos (by omega),
                  if_pos (by omega)]
                rw [(by omega : max ((start + fin) / 2 + 1) qs = qs),
                  (by omega : min fin qe = qe), (by omega : max start qs = qs),
                  min_comm, min_assoc, min_self]
            · -- query range straddles the midpoint
              by_cases hqs : qs ≤ start
              · by_cases hfe : fin ≤ qe
                · exact absurd (by omega) hfull
                · rw [if_pos (by omega), if_neg (by omega), if_pos (by omega), if_pos (by omega)]
                  rw [(by omega : max ((start + fin) / 2 + 1) qs = (start + fin) / 2 + 1),
                    (by omega : max start qs = start), (by omega : min fin qe = qe)]
                  rw [minRange_split D ((start + fin) / 2 - start) start ((start + fin) / 2) qe rfl
                    (by omega) (by omega), ← min_assoc]
              · by_cases hfe : fin ≤ qe
                · rw [if_neg (by omega), if_pos (by omega), if_pos (by omega), if_pos (by omega)]
                  rw [(by omega : max start qs = qs),
                    (by omega : min ((start + fin) / 2) qe = (start + fin) / 2),
                    (by omega : min fin qe = fin)]
                  rw [minRange_split D ((start + fin) / 2 - qs) qs ((start + fin) / 2) fin rfl
                    (by omega) (by omega), min_right_comm]
                · rw [if_neg (by omega), if_pos (by omega), if_neg (by omega), if_pos (by omega),
                    if_pos (by omega)]
                  rw [(by omega : max start qs = qs),
                    (by omega : min ((start + fin) / 2) qe = (start + fin) / 2),
                    (by omega : max ((start + fin) / 2 + 1) qs = (start + fin) / 2 + 1),
                    (by omega : min fin qe = qe)]
                  rw [minRange_split D ((start + fin) / 2 - qs) qs ((start + fin) / 2) qe rfl
                    (by omega) (by omega), min_min_INF]
        · rw [if_neg (by omega), if_neg (by omega), if_neg (by omega), if_neg (by omega),
            if_neg (by omega)]
          exact min_self INF

/-! ## Main simulation lemma for query -/

theorem queryGo_spec : ∀ fuel st start fin seg qs qe,
    1 ≤ seg → start ≤ fin → fin - start < fuel → Good st seg start fin →
    (Good (queryGo fuel st start fin seg qs qe).2 seg start fin
      ∧ (∀ k, start ≤ k → k ≤ fin →
          denote (queryGo fuel st start fin seg qs qe).2 seg start fin k
            = denote st seg start fin k)
      ∧ ((queryGo fuel st start fin seg qs qe).2.segment_tree seg
            + (queryGo fuel st start fin seg qs qe).2.lazy seg
          = st.segment_tree seg + st.lazy seg)
      ∧ (queryGo fuel st start fin seg qs qe).1
          = qspec fuel (denote st seg start fin) start fin qs qe) := by
  intro fuel
  induction fuel with
  | zero =>
    intro st start fin seg qs qe hseg hle hfu hG
    omega
  | succ fuel ih =>
    intro st start fin seg qs qe hseg hle hfu hG
    simp only [queryGo, qspec]
    split_ifs with hout hfull
    · refine ⟨push_Good _ _ hseg hG, ?_, ?_, rfl⟩
      · intro k h1 h2
        exact push_denote _ _ _ hseg
      · show (push st seg start fin).segment_tree seg + (push st seg start fin).lazy seg = _
        rw [push_tree_self, push_lazy_self]
        ring
    · refine ⟨push_Good _ _ hseg hG, ?_, ?_, ?_⟩
      · intro k h1 h2
        exact push_denote _ _ _ hseg
      · show (push st seg start fin).segment_tree seg + (push st seg start fin).lazy seg = _
        rw [push_tree_self, push_lazy_self]
        ring
      · show (push st seg start fin).segment_tree seg = minRange (denote st seg start fin) start fin
        have hgm := good_min (fin - start + 1) (push st seg start fin) seg start fin hle (by omega)
          (push_Good _ _ hseg hG)
        rw [push_lazy_self, add_zero] at hgm
        rw [hgm]
        exact minRange_congr hle (fun k h1 h2 => push_denote _ _ _ hseg)
    · dsimp only
      have hsf : start < fin := by omega
      have hG0 : Good (push st seg start fin) seg start fin := push_Good _ _ hseg hG
      have hz0 : (push st seg start fin).lazy seg = 0 := push_lazy_self _ _ _ _
      rw [Good_node _ _ _ _ hsf] at hG0
      obtain ⟨hhead0, hGL0, hGR0⟩ := hG0
      set st0 := push st seg start fin with hst0
      set pL := queryGo fuel st0 start ((start + fin) / 2) (2 * seg) qs qe with hpL
      set pR := queryGo fuel pL.2 ((start + fin) / 2 + 1) fin (2 * seg + 1) qs qe with hpR
      obtain ⟨hAGL, hAdL, hAsL, hAvL⟩ :=
        ih st0 start ((start + fin) / 2) (2 * seg) qs qe (by omega) (by omega) (by omega) hGL0
      rw [← hpL] at hAGL hAdL hAsL hAvL
      have hfrL : ∀ j, inTree (2 * seg + 1) j →
          pL.2.segment_tree j = st0.segment_tree j ∧ pL.2.lazy j = st0.lazy j := by
        intro j hj
        rw [hpL]
        exact queryGo_outside fuel st0 start ((start + fin) / 2) (2 * seg) qs qe j
          (fun hm => inTree_sibling_disj hseg hm hj)
      have hGR1 : Good pL.2 (2 * seg + 1) ((start + fin) / 2 + 1) fin :=
        (Good_congr pL.2 st0 ((start + fin) / 2 + 1) fin (by omega) (fun j hj => (hfrL j hj).1)
          (fun j hj hne => (hfrL j hj).2)).mpr hGR0
      obtain ⟨hBGR, hBdR, hBsR, hBvR⟩ :=
        ih pL.2 ((start + fin) / 2 + 1) fin (2 * seg + 1) qs qe (by omega) (by omega) (by omega) hGR1
      rw [← hpR] at hBGR hBdR hBsR hBvR
      have hfrR : ∀ j, inTree (2 * seg) j →
          pR.2.segment_tree j = pL.2.segment_tree j ∧ pR.2.lazy j = pL.2.lazy j := by
        intro j hj
        rw [hpR]
        exact queryGo_outside fuel pL.2 ((start + fin) / 2 + 1) fin (2 * seg + 1) qs qe j
          (fun hm => inTree_sibling_disj hseg hj hm)
      have hsegL : pL.2.segment_tree seg = st0.segment_tree seg ∧ pL.2.lazy seg = st0.lazy seg := by
        rw [hpL]
        exact queryGo_outside fuel st0 start ((start + fin) / 2) (2 * seg) qs qe seg
          (not_inTree_left_self hseg)
      have hsegR : pR.2.segment_tree seg = pL.2.segment_tree seg ∧ pR.2.lazy seg = pL.2.lazy seg := by
        rw [hpR]
        exact queryGo_outside fuel pL.2 ((start + fin) / 2 + 1) fin (2 * seg + 1) qs qe seg
          (not_inTree_right_self hseg)
      refine ⟨?_, ?_, ?_, ?_⟩
      · rw [Good_node _ _ _ _ hsf]
        refine ⟨?_, ?_, ?_⟩
        · rw [hsegR.1, hsegL.1]
          have s2 : pR.2.segment_tree (2 * seg) + pR.2.lazy (2 * seg)
              = st0.segment_tree (2 * seg) + st0.lazy (2 * seg) := by
            rw [(hfrR (2 * seg) (inTree_self _)).1, (hfrR (2 * seg) (inTree_self _)).2, hAsL]
          have s3 : pR.2.segment_tree (2 * seg + 1) + pR.2.lazy (2 * seg + 1)
              = st0.segment_tree (2 * seg + 1) + st0.lazy (2 * seg + 1) := by
            rw [hBsR, (hfrL (2 * seg + 1) (inTree_self _)).1, (hfrL (2 * seg + 1) (inTree_self _)).2]
          rw [s2, s3]
          exact hhead0
        · exact (Good_congr pR.2 pL.2 start ((start + fin) / 2) (by omega)
            (fun j hj => (hfrR j hj).1) (fun j hj hne => (hfrR j hj).2)).mpr hAGL
        · exact hBGR
      · intro k h1 h2
        have hdst : denote st seg start fin k = denote st0 seg start fin k := by
          rw [hst0, push_denote _ _ _ hseg]
        rw [hdst, denote_node _ _ _ _ _ hsf, denote_node st0 _ _ _ _ hsf, hsegR.2, hsegL.2]
        congr 1
        by_cases hk : k ≤ (start + fin) / 2
        · rw [if_pos hk, if_pos hk]
          have e1 : denote pR.2 (2 * seg) start ((start + fin) / 2) k
              = denote pL.2 (2 * seg) start ((start + fin) / 2) k :=
            denote_congr pR.2 pL.2 start ((start + fin) / 2) k
              (fun j hj => (hfrR j hj).1) (fun j hj => (hfrR j hj).2)
          rw [e1]
          exact hAdL k h1 hk
        · rw [if_neg hk, if_neg hk]
          rw [hBdR k (by omega) h2]
          exact denote_congr pL.2 st0 ((start + fin) / 2 + 1) fin k
            (fun j hj => (hfrL j hj).1) (fun j hj => (hfrL j hj).2)
      · rw [hsegR.1, hsegL.1, hsegR.2, hsegL.2, hst0, push_tree_self, push_lazy_self]
        ring
      · rw [hAvL, hBvR]
        have c1 : qspec fuel (denote st0 (2 * seg) start ((start + fin) / 2)) start
            ((start + fin) / 2) qs qe
            = qspec fuel (denote st seg start fin) start ((start + fin) / 2) qs qe := by
          refine qspec_congr fuel _ _ start ((start + fin) / 2) qs qe (by omega) ?_
          intro k h1 h2
          have e2 : denote st seg start fin k = denote st0 seg start fin k := by
            rw [hst0, push_denote _ _ _ hseg]
          rw [e2, denote_node st0 _ _ _ _ hsf, hz0, if_pos h2]
          ring
        have c2 : qspec fuel (denote pL.2 (2 * seg + 1) ((start + fin) / 2 + 1) fin)
            ((start + fin) / 2 + 1) fin qs qe
            = qspec fuel (denote st seg start fin) ((start + fin) / 2 + 1) fin qs qe := by
          refine qspec_congr fuel _ _ ((start + fin) / 2 + 1) fin qs qe (by omega) ?_
          intro k h1 h2
          have e1 : denote pL.2 (2 * seg + 1) ((start + fin) / 2 + 1) fin k
              = denote st0 (2 * seg + 1) ((start + fin) / 2 + 1) fin k :=
            denote_congr pL.2 st0 ((start + fin) / 2 + 1) fin k
              (fun j hj => (hfrL j hj).1) (fun j hj => (hfrL j hj).2)
          have e2 : denote st seg start fin k = denote st0 seg start fin k := by
            rw [hst0, push_denote _ _ _ hseg]
          rw [e1, e2, denote_node st0 _ _ _ _ hsf, hz0, if_neg (by omega)]
          ring
        rw [c1, c2]

/-! ## Main simulation lemma for buildTree -/

theorem buildTreeGo_spec : ∀ fuel st start fin seg,
    1 ≤ seg → start ≤ fin → fin - start < fuel →
    (∀ j, inTree seg j → st.lazy j = 0) →
    (Good (buildTreeGo fuel st start fin seg) seg start fin
      ∧ (∀ k, start ≤ k → k ≤ fin →
          denote (buildTreeGo fuel st start fin seg) seg start fin k = st.ar k)) := by
  intro fuel
  induction fuel with
  | zero =>
    intro st start fin seg hseg hle hfu hz
    omega
  | succ fuel ih =>
    intro st start fin seg hseg hle hfu hz
    simp only [buildTreeGo]
    split_ifs with hef
    · subst hef
      constructor
      · exact Good_leaf _ _ _ _ (le_refl _)
      · intro k h1 h2
        have hk : k = start := by omega
        subst hk
        rw [denote_leaf _ _ _ _ _ (le_refl _)]
        show fset st.segment_tree seg (st.ar k) seg + st.lazy seg = st.ar k
        rw [fset_same, hz seg (inTree_self seg), add_zero]
    · have hsf : start < fin := by omega
      set stL := buildTreeGo fuel st start ((start + fin) / 2) (2 * seg) with hstL
      set stR := buildTreeGo fuel stL ((start + fin) / 2 + 1) fin (2 * seg + 1) with hstR
      have hLlazy : stL.lazy = st.lazy := by
        rw [hstL]
        exact (buildTreeGo_ar fuel st start ((start + fin) / 2) (2 * seg)).2.2
      have hRlazy : stR.lazy = stL.lazy := by
        rw [hstR]
        exact (buildTreeGo_ar fuel stL ((start + fin) / 2 + 1) fin (2 * seg + 1)).2.2
      have hLar : stL.ar = st.ar := by
        rw [hstL]
        exact (buildTreeGo_ar fuel st start ((start + fin) / 2) (2 * seg)).1
      obtain ⟨hGL, hdL⟩ := ih st start ((start + fin) / 2) (2 * seg) (by omega) (by omega) (by omega)
        (fun j hj => hz j (inTree_parent_left hj))
      rw [← hstL] at hGL hdL
      obtain ⟨hGR, hdR⟩ := ih stL ((start + fin) / 2 + 1) fin (2 * seg + 1) (by omega) (by omega)
        (by omega) (fun j hj => by rw [hLlazy]; exact hz j (inTree_parent_right hj))
      rw [← hstR] at hGR hdR
      have hfrR : ∀ j, inTree (2 * seg) j → stR.segment_tree j = stL.segment_tree j := by
        intro j hj
        rw [hstR]
        exact buildTreeGo_outside fuel stL ((start + fin) / 2 + 1) fin (2 * seg + 1) j
          (fun hm => inTree_sibling_disj hseg hj hm)
      have hGL2 : Good stR (2 * seg) start ((start + fin) / 2) :=
        (Good_congr stR stL start ((start + fin) / 2) (by omega) (fun j hj => hfrR j hj)
          (fun j hj hne => by rw [hRlazy])).mpr hGL
      constructor
      · rw [Good_node _ _ _ _ hsf]
        dsimp only
        refine ⟨?_, ?_, ?_⟩
        · rw [fset_same, fset_other _ _ _ (by omega : (2 * seg : Nat) ≠ seg),
            fset_other _ _ _ (by omega : (2 * seg + 1 : Nat) ≠ seg)]
          have z2 : stR.lazy (2 * seg) = 0 := by
            rw [hRlazy, hLlazy]
            exact hz _ (inTree_child_left seg)
          have z3 : stR.lazy (2 * seg + 1) = 0 := by
            rw [hRlazy, hLlazy]
            exact hz _ (inTree_child_right seg)
          rw [z2, z3]
          simp
        · exact Good_set_tree_outside stR seg _ start ((start + fin) / 2) (by omega)
            (not_inTree_left_self hseg) hGL2
        · exact Good_set_tree_outside stR seg _ ((start + fin) / 2 + 1) fin (by omega)
            (not_inTree_right_self hseg) hGR
      · intro k h1 h2
        rw [denote_node _ _ _ _ _ hsf]
        dsimp only
        have zs : stR.lazy seg = 0 := by
          rw [hRlazy, hLlazy]
          exact hz seg (inTree_self seg)
        rw [zs]
        by_cases hk : k ≤ (start + fin) / 2
        · rw [if_pos hk,
            denote_set_tree_outside stR seg _ start ((start + fin) / 2) k (not_inTree_left_self hseg)]
          have e2 : denote stR (2 * seg) start ((start + fin) / 2) k
              = denote stL (2 * seg) start ((start + fin) / 2) k :=
            denote_congr stR stL start ((start + fin) / 2) k (fun j hj => hfrR j hj)
              (fun j hj => by rw [hRlazy])
          rw [e2, hdL k h1 hk]
          ring
        · rw [if_neg hk,
            denote_set_tree_outside stR seg _ ((start + fin) / 2 + 1) fin k (not_inTree_right_self hseg)]
          rw [hdR k (by omega) h2, hLar]
          ring

/-! ## Top-level simulation: build, updateRange, pointUpdate, rangeMin -/

theorem build_sim {n : Nat} (arr : Nat → Int) (hn : 1 ≤ n) : Sim n (build n arr) ⟨arr, arr⟩ := by
  unfold build buildTree
  have hfuel : n - 1 + 1 - 0 = n := by omega
  rw [hfuel]
  set stI : SegTree := { ar := arr, segment_tree := fun _ => INF, lazy := fun _ => 0, n := n }
    with hstI
  obtain ⟨hG, hd⟩ := buildTreeGo_spec n stI 0 (n - 1) 1 (le_refl 1) (by omega) (by omega)
    (fun j hj => rfl)
  refine ⟨?_, hG, ?_, ?_⟩
  · rw [(buildTreeGo_ar n stI 0 (n - 1) 1).2.1]
  · intro k hk
    exact hd k (by omega) (by omega)
  · intro k
    rw [(buildTreeGo_ar n stI 0 (n - 1) 1).1]

theorem updateRange_sim {n : Nat} {st : SegTree} {m : Model} (hn : 1 ≤ n) (h : Sim n st m)
    (l r : Nat) (v : Int) :
    Sim n (updateRange st l r v)
      ⟨fun k => if l ≤ k ∧ k ≤ r then m.L k + v else m.L k, m.A⟩ := by
  obtain ⟨hN, hG, hL, hA⟩ := h
  unfold updateRange rangeUpdate
  rw [hN]
  have hfuel : n - 1 + 1 - 0 = n := by omega
  rw [hfuel]
  obtain ⟨hz, hG2, hd⟩ := rangeUpdateGo_spec n st 1 0 (n - 1) l r v (le_refl 1) (by omega)
    (by omega) hG
  refine ⟨?_, hG2, ?_, ?_⟩
  · rw [(rangeUpdateGo_ar n st 1 0 (n - 1) l r v).2, hN]
  · intro k hk
    dsimp only
    rw [hd k (by omega) (by omega), hL k hk]
    split_ifs with hc
    · rfl
    · ring
  · intro k
    dsimp only
    rw [congrFun (rangeUpdateGo_ar n st 1 0 (n - 1) l r v).1 k]
    exact hA k

theorem Good_set_ar (st : SegTree) (f : Nat → Int) {seg : Nat} (lo hi : Nat) (hs : 1 ≤ seg)
    (hG : Good st seg lo hi) :
    Good { ar := f, segment_tree := st.segment_tree, lazy := st.lazy, n := st.n } seg lo hi :=
  (Good_congr { ar := f, segment_tree := st.segment_tree, lazy := st.lazy, n := st.n } st lo hi hs
    (fun j hj => rfl) (fun j hj hne => rfl)).mpr hG

theorem denote_set_ar (st : SegTree) (f : Nat → Int) {seg : Nat} (lo hi k : Nat) :
    denote { ar := f, segment_tree := st.segment_tree, lazy := st.lazy, n := st.n } seg lo hi k
      = denote st seg lo hi k :=
  denote_congr { ar := f, segment_tree := st.segment_tree, lazy := st.lazy, n := st.n } st lo hi k
    (fun j hj => rfl) (fun j hj => rfl)

theorem pointUpdate_sim {n : Nat} {st : SegTree} {m : Model} (hn : 1 ≤ n) (h : Sim n st m)
    (i : Nat) (v : Int) :
    Sim n (pointUpdate st i v)
      ⟨fun k => if k = i then m.L k + (v - m.A i) else m.L k,
        fun k => if k = i then v else m.A k⟩ := by
  have hAi : st.ar i = m.A i := h.2.2.2 i
  have h1 := updateRange_sim hn h i i (v - st.ar i)
  obtain ⟨hN1, hG1, hL1, hA1⟩ := h1
  dsimp only at hL1 hA1
  unfold pointUpdate
  dsimp only
  refine ⟨hN1, ?_, ?_, ?_⟩
  · exact Good_set_ar (updateRange st i i (v - st.ar i)) _ 0 (n - 1) (le_refl 1) hG1
  · intro k hk
    dsimp only
    rw [denote_set_ar (updateRange st i i (v - st.ar i)) _ 0 (n - 1) k, hL1 k hk, hAi]
    by_cases hc : k = i
    · subst hc
      rw [if_pos ⟨le_refl k, le_refl k⟩, if_pos rfl]
    · rw [if_neg (by omega), if_neg hc]
  · intro k
    dsimp only
    show fset (updateRange st i i (v - st.ar i)).ar i v k = _
    unfold fset
    split_ifs with hc
    · rfl
    · exact hA1 k

theorem rangeMin_sim {n : Nat} {st : SegTree} {m : Model} (hn : 1 ≤ n) (h : Sim n st m)
    (l r : Nat) :
    (rangeMin st l r).1 = rmqSpec n m.L l r ∧ Sim n (rangeMin st l r).2 m := by
  obtain ⟨hN, hG, hL, hA⟩ := h
  unfold rangeMin query
  rw [hN]
  have hfuel : n - 1 + 1 - 0 = n := by omega
  rw [hfuel]
  obtain ⟨hG2, hd, hsum, hv⟩ := queryGo_spec n st 0 (n - 1) 1 l r (le_refl 1) (by omega)
    (by omega) hG
  constructor
  · rw [hv, qspec_eq n (denote st 1 0 (n - 1)) 0 (n - 1) l r (by omega) (by omega)]
    unfold rmqSpec
    split_ifs with h1 h2 h3 h4
    · exact minRange_congr (by omega) (fun k hk1 hk2 => hL k (by omega))
    · rw [(by omega : max 0 l = l)]
      have e : minRange (denote st 1 0 (n - 1)) l (min (n - 1) r) = minRange m.L l (min (n - 1) r) :=
        minRange_congr (by omega) (fun k hk1 hk2 => hL k (by omega))
      rw [e]
    · exact absurd (by omega) h3
    · exact absurd (by omega) h2
    · rfl
  · refine ⟨?_, hG2, ?_, ?_⟩
    · rw [(queryGo_ar n st 0 (n - 1) 1 l r).2, hN]
    · intro k hk
      rw [hd k (by omega) (by omega)]
      exact hL k hk
    · intro k
      rw [congrFun (queryGo_ar n st 0 (n - 1) 1 l r).1 k]
      exact hA k

/-! ## Simulation along any operation sequence -/

theorem stepS_sim {n : Nat} {st : SegTree} {m : Model} (hn : 1 ≤ n) (h : Sim n st m) :
    ∀ op, Sim n (stepS st op) (stepM m op) := by
  intro op
  cases op with
  | update l r v => exact updateRange_sim hn h l r v
  | point i v => exact pointUpdate_sim hn h i v
  | qry l r => exact (rangeMin_sim hn h l r).2

theorem runS_sim {n : Nat} (hn : 1 ≤ n) :
    ∀ ops st m, Sim n st m → Sim n (runS st ops) (runM m ops) := by
  intro ops
  induction ops with
  | nil => intro st m h; exact h
  | cons op ops ih =>
    intro st m h
    exact ih _ _ (stepS_sim hn h op)

theorem reach_sim {n : Nat} {arr : Nat → Int} {ops : List Op} {st : SegTree} {m : Model}
    (h : Reach n arr ops st m) : Sim n st m := by
  obtain ⟨hn, hok, hst, hm⟩ := h
  subst hst
  subst hm
  exact runS_sim hn ops _ _ (build_sim arr hn)

/-! ## Auxiliary lemmas used by individual claims -/

theorem good_spans {n : Nat} {st : SegTree} (hG : Good st 1 0 (n - 1)) :
    ∀ {s lo hi : Nat}, Spans n s lo hi → Good st s lo hi := by
  intro s lo hi hsp
  induction hsp with
  | root => exact hG
  | left hsp hlt ih =>
    rw [Good_node _ _ _ _ hlt] at ih
    exact ih.2.1
  | right hsp hlt ih =>
    rw [Good_node _ _ _ _ hlt] at ih
    exact ih.2.2

theorem runM_untouched (k : Nat) : ∀ ops m, m.L k = m.A k →
    (∀ op ∈ ops, ¬ touches op k) → ((runM m ops).L k = (runM m ops).A k) := by
  intro ops
  induction ops with
  | nil => intro m h _; exact h
  | cons op ops ih =>
    intro m h hno
    refine ih (stepM m op) ?_ (fun o ho => hno o (List.mem_cons_of_mem _ ho))
    cases op with
    | update l r v =>
      have hnt : ¬ (l ≤ k ∧ k ≤ r) := hno _ (List.mem_cons_self _ _)
      show (if l ≤ k ∧ k ≤ r then m.L k + v else m.L k) = m.A k
      rw [if_neg hnt]
      exact h
    | point i v =>
      show (if k = i then m.L k + (v - m.A i) else m.L k) = (if k = i then v else m.A k)
      by_cases hc : k = i
      · subst hc
        rw [if_pos rfl, if_pos rfl, h]
        ring
      · rw [if_neg hc, if_neg hc]
        exact h
    | qry l r => exact h

theorem stepM_update_comm (m : Model) (l1 r1 l2 r2 : Nat) (d1 d2 : Int) :
    stepM (stepM m (.update l1 r1 d1)) (.update l2 r2 d2)
      = stepM (stepM m (.update l2 r2 d2)) (.update l1 r1 d1) := by
  show Model.mk _ _ = Model.mk _ _
  congr 1
  funext k
  simp only [stepM]
  split_ifs <;> ring

theorem rangeUpdateSkipGo_eq : ∀ fuel st node start fin l r v, 1 ≤ node →
    (∀ j, inTree node j → st.lazy j = 0) →
    rangeUpdateSkipGo fuel st node start fin l r v = rangeUpdateGo fuel st node start fin l r v := by
  intro fuel
  induction fuel with
  | zero => intro st node start fin l r v hnode hz; rfl
  | succ fuel ih =>
    intro st node start fin l r v hnode hz
    have hpz : push st node start fin = st := push_eq_self start fin (hz node (inTree_self node))
    simp only [rangeUpdateSkipGo, rangeUpdateGo]
    rw [hpz]
    split_ifs with h1 h2
    · rfl
    · rfl
    · rw [ih st (2 * node) start ((start + fin) / 2) l r v (by omega)
        (fun j hj => hz j (inTree_parent_left hj))]
      rw [ih (rangeUpdateGo fuel st (2 * node) start ((start + fin) / 2) l r v) (2 * node + 1)
        ((start + fin) / 2 + 1) fin l r v (by omega) ?_]
      intro j hj
      rw [(rangeUpdateGo_outside fuel st (2 * node) start ((start + fin) / 2) l r v j
        (fun hm => inTree_sibling_disj hnode hm hj)).2]
      exact hz j (inTree_parent_right hj)

/-! ## Claim C1 -/

/-- Counterexample to claim C1 as stated: with element values above the
    INF sentinel (possible for signed 64-bit values), a partial-range query
    returns INF instead of the naive minimum.  Array [2e18, 2e18], update
    (0,0,+0), query [0,0] returns 1e18, not 2e18. -/
theorem C1_counterexample :
    (rangeMin (updateRange (build 2 (fun _ => 2 * 10 ^ 18)) 0 0 0) 0 0).1
      ≠ minRange (fun k => if 0 ≤ k ∧ k ≤ 0 then (2 * 10 ^ 18 : Int) + 0 else 2 * 10 ^ 18) 0 0 := by
  decide

/-- Claim C1 (amended): for every array A of size n >= 1, in-range update
    range [lo, hi] with delta d, and in-range query range [ql, qh], if the
    naive answer min over k in [ql,qh] of (A k + d when lo <= k <= hi else
    A k) does not exceed the sentinel INF = 10^18, then querying after the
    update returns exactly that naive answer.  (The boundedness hypothesis
    is forced by C1_counterexample; it holds whenever all values and deltas
    stay below 10^18, the regime the sentinel is designed for.) -/
theorem C1_range_update_matches_naive (n : Nat) (A : Nat → Int) (lo hi : Nat) (d : Int)
    (ql qh : Nat) (hn : 1 ≤ n) (h1 : lo ≤ hi) (h2 : hi ≤ n - 1) (h3 : ql ≤ qh)
    (h4 : qh ≤ n - 1)
    (hbound : minRange (fun k => if lo ≤ k ∧ k ≤ hi then A k + d else A k) ql qh ≤ INF) :
    (rangeMin (updateRange (build n A) lo hi d) ql qh).1
      = minRange (fun k => if lo ≤ k ∧ k ≤ hi then A k + d else A k) ql qh := by
  have hS := build_sim A hn
  have hS2 := updateRange_sim hn hS lo hi d
  rw [(rangeMin_sim hn hS2 ql qh).1]
  unfold rmqSpec
  dsimp only
  split_ifs with hq1 hq2
  · rw [(by omega : ql = 0), (by omega : qh = n - 1)]
  · rw [(by omega : min (n - 1) qh = qh)]
    exact min_eq_left hbound
  · exact absurd (by omega) hq2

/-- Witness for C1 at a concrete input. -/
theorem C1_witness :
    (rangeMin (updateRange (build 3 (fun k => ([5, 3, 7] : List Int).getD k 0)) 1 2 (-1)) 0 2).1
      = minRange (fun k => if 1 ≤ k ∧ k ≤ 2 then ([5, 3, 7] : List Int).getD k 0 + (-1)
          else ([5, 3, 7] : List Int).getD k 0) 0 2 :=
  C1_range_update_matches_naive 3 (fun k => ([5, 3, 7] : List Int).getD k 0) 1 2 (-1) 0 2
    (by decide) (by decide) (by decide) (by decide) (by decide) (by decide)

/-! ## Claim C2 -/

/-- Counterexample to claim C2 as stated: updateRange does not write the
    member array ar, so a later pointUpdate computes its delta against a
    stale value.  On A = [0]: updateRange(0,0,+5) then pointUpdate(0,7)
    leaves the logical value 12, so the query over [0,0] returns 12, not 7. -/
theorem C2_counterexample :
    (rangeMin (pointUpdate (updateRange (build 1 (fun _ => 0)) 0 0 5) 0 7) 0 0).1 ≠ 7 := by
  decide

/-- Claim C2 (amended): in every reachable state, after pointUpdate(i, v):
    a query over [i, i] returns v provided the tracked base entry ar[i] is
    still in sync with the logical value at i (in particular whenever no
    earlier updateRange covered i; C2_counterexample shows the sync
    hypothesis is necessary) and v does not exceed the INF sentinel; and,
    unconditionally on the reachable state, a query over any in-range
    interval not containing i returns the same value it returned before
    the point update. -/
theorem C2_point_update (n : Nat) (arr : Nat → Int) (ops : List Op) (st : SegTree) (m : Model)
    (h : Reach n arr ops st m) (i : Nat) (v : Int) (hi : i < n) :
    ((m.A i = m.L i → v ≤ INF → (rangeMin (pointUpdate st i v) i i).1 = v)
      ∧ ∀ l r, l ≤ r → r < n → (i < l ∨ r < i) →
          (rangeMin (pointUpdate st i v) l r).1 = (rangeMin st l r).1) := by
  have hn := h.1
  have hS := reach_sim h
  have hS2 := pointUpdate_sim hn hS i v
  constructor
  · intro hsync hv
    rw [(rangeMin_sim hn hS2 i i).1]
    unfold rmqSpec
    dsimp only
    split_ifs with c1 c2
    · have hi0 : i = 0 := by omega
      subst hi0
      rw [(by omega : n - 1 = 0), minRange_single, if_pos rfl, hsync]
      ring
    · rw [(by omega : min (n - 1) i = i), minRange_single, if_pos rfl, hsync]
      have he : m.L i + (v - m.L i) = v := by ring
      rw [he]
      exact min_eq_left hv
    · exact absurd (by omega) c2
  · intro l r hlr hrn hout
    rw [(rangeMin_sim hn hS2 l r).1, (rangeMin_sim hn hS l r).1]
    unfold rmqSpec
    dsimp only
    split_ifs with c1 c2
    · exact ((by omega : False)).elim
    · have e : minRange (fun k => if k = i then m.L k + (v - m.A i) else m.L k) l (min (n - 1) r)
          = minRange m.L l (min (n - 1) r) :=
        minRange_congr (by omega) (fun k hk1 hk2 => by rw [if_neg (by omega)])
      rw [e]
    · rfl

/-- Witness for C2 at a concrete input: empty history, so ar is in sync. -/
theorem C2_witness :
    ((rangeMin (pointUpdate (runS (build 2 (fun _ => 0)) []) 0 3) 0 0).1 = 3
      ∧ (rangeMin (pointUpdate (runS (build 2 (fun _ => 0)) []) 0 3) 1 1).1
          = (rangeMin (runS (build 2 (fun _ => 0)) []) 1 1).1) := by
  have h : Reach 2 (fun _ => (0 : Int)) [] (runS (build 2 (fun _ => 0)) [])
      (runM ⟨fun _ => 0, fun _ => 0⟩ []) :=
    ⟨by omega, fun op hop => absurd hop (List.not_mem_nil op), rfl, rfl⟩
  exact ⟨(C2_point_update 2 (fun _ => 0) [] _ _ h 0 3 (by omega)).1 rfl (by decide),
    (C2_point_update 2 (fun _ => 0) [] _ _ h 0 3 (by omega)).2 1 1
      (by omega) (by omega) (by omega)⟩

/-! ## Claim C3 -/

/-- Claim C3 (confirmed): for every array A of size n >= 1, a range-minimum
    query over the full range [0, n-1] immediately after construction
    returns min(A).  The full-range query is answered at the root without
    consulting the INF sentinel, so no boundedness hypothesis is needed. -/
theorem C3_build_full_query (n : Nat) (A : Nat → Int) (hn : 1 ≤ n) :
    (rangeMin (build n A) 0 (n - 1)).1 = minRange A 0 (n - 1) := by
  rw [(rangeMin_sim hn (build_sim A hn) 0 (n - 1)).1]
  unfold rmqSpec
  rw [if_pos ⟨le_refl 0, le_refl (n - 1)⟩]

/-- Witness for C3 at a concrete input. -/
theorem C3_witness :
    (rangeMin (build 3 (fun k => ([4, 1, 2] : List Int).getD k 0)) 0 2).1
      = minRange (fun k => ([4, 1, 2] : List Int).getD k 0) 0 2 :=
  C3_build_full_query 3 (fun k => ([4, 1, 2] : List Int).getD k 0) (by decide)

/-! ## Claim C4 -/

/-- Claim C4 (confirmed): from any reachable state, running any sequence
    of rangeMin queries (no updates) and then querying [l, r] returns the
    same value as querying [l, r] directly: reading has no observable side
    effect, and in particular two successive identical queries agree. -/
theorem C4_queries_no_side_effect (n : Nat) (arr : Nat → Int) (ops : List Op) (st : SegTree)
    (m : Model) (h : Reach n arr ops st m) :
    ∀ qlist : List (Nat × Nat), ∀ l r,
      (rangeMin (runS st (qlist.map (fun p => Op.qry p.1 p.2))) l r).1
        = (rangeMin st l r).1 := by
  have hn := h.1
  have hS := reach_sim h
  intro qlist l r
  have gen : ∀ q : List (Nat × Nat), ∀ s, Sim n s m →
      Sim n (runS s (q.map (fun p => Op.qry p.1 p.2))) m := by
    intro q
    induction q with
    | nil => intro s hs; exact hs
    | cons p q ih =>
      intro s hs
      exact ih _ (stepS_sim hn hs (Op.qry p.1 p.2))
  rw [(rangeMin_sim hn (gen qlist st hS) l r).1, (rangeMin_sim hn hS l r).1]

/-- Witness for C4 at a concrete input. -/
theorem C4_witness :
    (rangeMin (runS (runS (build 2 (fun k => ([9, 4] : List Int).getD k 0)) [])
        ([(0, 1), (1, 1)].map (fun p => Op.qry p.1 p.2))) 0 1).1
      = (rangeMin (runS (build 2 (fun k => ([9, 4] : List Int).getD k 0)) []) 0 1).1 := by
  have h : Reach 2 (fun k => ([9, 4] : List Int).getD k 0) []
      (runS (build 2 (fun k => ([9, 4] : List Int).getD k 0)) [])
      (runM ⟨fun k => ([9, 4] : List Int).getD k 0, fun k => ([9, 4] : List Int).getD k 0⟩ []) :=
    ⟨by omega, fun op hop => absurd hop (List.not_mem_nil op), rfl, rfl⟩
  exact C4_queries_no_side_effect 2 _ [] _ _ h [(0, 1), (1, 1)] 0 1

/-! ## Claim C5 -/

/-- Claim C5 (confirmed): from any reachable state, two range updates on
    disjoint in-range intervals commute observationally: after applying
    them in either order, every subsequent operation sequence and final
    query produce the same answer.  (Additive updates in fact commute even
    without disjointness.) -/
theorem C5_disjoint_updates_commute (n : Nat) (arr : Nat → Int) (ops : List Op) (st : SegTree)
    (m : Model) (h : Reach n arr ops st m) (l1 r1 l2 r2 : Nat) (d1 d2 : Int)
    (hb1 : l1 ≤ r1) (hb2 : r1 < n) (hb3 : l2 ≤ r2) (hb4 : r2 < n)
    (hdisj : r1 < l2 ∨ r2 < l1) :
    ∀ tail : List Op, ∀ l r,
      (rangeMin (runS (updateRange (updateRange st l1 r1 d1) l2 r2 d2) tail) l r).1
        = (rangeMin (runS (updateRange (updateRange st l2 r2 d2) l1 r1 d1) tail) l r).1 := by
  have hn := h.1
  have hS := reach_sim h
  have h12 : Sim n (updateRange (updateRange st l1 r1 d1) l2 r2 d2)
      (stepM (stepM m (.update l1 r1 d1)) (.update l2 r2 d2)) :=
    stepS_sim hn (stepS_sim hn hS (.update l1 r1 d1)) (.update l2 r2 d2)
  have h21 : Sim n (updateRange (updateRange st l2 r2 d2) l1 r1 d1)
      (stepM (stepM m (.update l2 r2 d2)) (.update l1 r1 d1)) :=
    stepS_sim hn (stepS_sim hn hS (.update l2 r2 d2)) (.update l1 r1 d1)
  rw [stepM_update_comm] at h12
  intro tail l r
  rw [(rangeMin_sim hn (runS_sim hn tail _ _ h12) l r).1,
    (rangeMin_sim hn (runS_sim hn tail _ _ h21) l r).1]

/-- Witness for C5 at a concrete input. -/
theorem C5_witness :
    (rangeMin (runS (updateRange (updateRange (runS (build 3 (fun _ => 0)) []) 0 0 1) 2 2 5) [])
        0 2).1
      = (rangeMin (runS (updateRange (updateRange (runS (build 3 (fun _ => 0)) []) 2 2 5) 0 0 1) [])
        0 2).1 := by
  have h : Reach 3 (fun _ => (0 : Int)) [] (runS (build 3 (fun _ => 0)) [])
      (runM ⟨fun _ => 0, fun _ => 0⟩ []) :=
    ⟨by omega, fun op hop => absurd hop (List.not_mem_nil op), rfl, rfl⟩
  exact C5_disjoint_updates_commute 3 _ [] _ _ h 0 0 2 2 1 5 (by omega) (by omega) (by omega)
    (by omega) (by omega) [] 0 2

/-! ## Claim C6 -/

/-- Claim C6 (confirmed): in every reachable state, every internal node s
    of the tree decomposition (covering lo..hi with lo < hi) with
    lazy[s] = 0 stores the minimum of its two children's settled values
    (child tree value plus child pending lazy delta).  The invariant in
    fact holds even without the lazy[s] = 0 hypothesis. -/
theorem C6_internal_node_invariant (n : Nat) (arr : Nat → Int) (ops : List Op) (st : SegTree)
    (m : Model) (h : Reach n arr ops st m) (s lo hi : Nat) (hsp : Spans n s lo hi)
    (hlt : lo < hi) (hlz : st.lazy s = 0) :
    st.segment_tree s = min (st.segment_tree (2 * s) + st.lazy (2 * s))
      (st.segment_tree (2 * s + 1) + st.lazy (2 * s + 1)) := by
  have hS := reach_sim h
  have hG : Good st s lo hi := good_spans hS.2.1 hsp
  rw [Good_node _ _ _ _ hlt] at hG
  exact hG.1

/-- Witness for C6 at a concrete input: the root of a freshly built
    two-element tree. -/
theorem C6_witness :
    (runS (build 2 (fun k => ([7, 2] : List Int).getD k 0)) []).segment_tree 1
      = min ((runS (build 2 (fun k => ([7, 2] : List Int).getD k 0)) []).segment_tree 2
            + (runS (build 2 (fun k => ([7, 2] : List Int).getD k 0)) []).lazy 2)
          ((runS (build 2 (fun k => ([7, 2] : List Int).getD k 0)) []).segment_tree 3
            + (runS (build 2 (fun k => ([7, 2] : List Int).getD k 0)) []).lazy 3) := by
  have h : Reach 2 (fun k => ([7, 2] : List Int).getD k 0) []
      (runS (build 2 (fun k => ([7, 2] : List Int).getD k 0)) [])
      (runM ⟨fun k => ([7, 2] : List Int).getD k 0, fun k => ([7, 2] : List Int).getD k 0⟩ []) :=
    ⟨by omega, fun op hop => absurd hop (List.not_mem_nil op), rfl, rfl⟩
  exact C6_internal_node_invariant 2 _ [] _ _ h 1 0 1 Spans.root (by omega) (by decide)

/-! ## Claim C7 -/

/-- Counterexample to claim C7 as stated: after an updateRange, a leaf's
    stored value (even including its own pending lazy delta, which is 0
    here) no longer equals the member array entry ar[lo], because
    updateRange never writes ar.  On A = [5], updateRange(0,0,+3) leaves
    the leaf storing 8 while ar[0] is still 5. -/
theorem C7_counterexample :
    (updateRange (build 1 (fun _ => 5)) 0 0 3).segment_tree 1
        + (updateRange (build 1 (fun _ => 5)) 0 0 3).lazy 1
      ≠ (updateRange (build 1 (fun _ => 5)) 0 0 3).ar 0 := by
  decide

/-- Claim C7 (amended): in every reachable state, the value index k is
    represented as by the tree (the leaf's stored value plus every
    unflushed lazy delta on the path from the root to that leaf, i.e.
    denote at the root) equals the member array entry ar[k] provided no
    updateRange in the history covered index k (C7_counterexample shows
    that after an updateRange covering k the two differ; in general the
    represented value is ar[k] plus the net uncompensated range deltas). -/
theorem C7_leaf_tracks_ar (n : Nat) (arr : Nat → Int) (ops : List Op) (st : SegTree)
    (m : Model) (h : Reach n arr ops st m) (k : Nat) (hk : k < n)
    (hno : ∀ op ∈ ops, ¬ touches op k) :
    denote st 1 0 (n - 1) k = st.ar k := by
  have hS := reach_sim h
  have hsync : m.L k = m.A k := by
    obtain ⟨hn, hok, hst, hm⟩ := h
    subst hm
    exact runM_untouched k ops ⟨arr, arr⟩ rfl hno
  rw [hS.2.2.1 k hk, hsync, ← hS.2.2.2 k]

/-- Witness for C7 at a concrete input: a history with one point update,
    which keeps ar in sync. -/
theorem C7_witness :
    denote (runS (build 1 (fun _ => 4)) [Op.point 0 9]) 1 0 0 0
      = (runS (build 1 (fun _ => 4)) [Op.point 0 9]).ar 0 := by
  have h : Reach 1 (fun _ => (4 : Int)) [Op.point 0 9]
      (runS (build 1 (fun _ => 4)) [Op.point 0 9])
      (runM ⟨fun _ => 4, fun _ => 4⟩ [Op.point 0 9]) :=
    ⟨by omega, by decide, rfl, rfl⟩
  exact C7_leaf_tracks_ar 1 _ [Op.point 0 9] _ _ h 0 (by omega) (by decide)

/-! ## Claim C8 -/

/-- Counterexample to claim C8 as stated: skipping the entry flush on
    no-overlap nodes is observable.  After updateRange(0,1,+5) on
    A = [10, 0], the node for index 0 holds a pending delta; the original
    rangeUpdate(1,1,+100) flushes it before recombining the parent
    minimum, the skip variant does not, and the parent stores a stale
    minimum: the full-range query answers differ (10 versus 15). -/
theorem C8_counterexample :
    (rangeMin (updateRangeSkip (updateRangeSkip (build 2 (fun k => if k = 0 then 10 else 0)) 0 1 5)
          1 1 100) 0 1).1
      ≠ (rangeMin (updateRange (updateRange (build 2 (fun k => if k = 0 then 10 else 0)) 0 1 5)
          1 1 100) 0 1).1 := by
  decide

/-- Claim C8 (amended): the skip-flush variant coincides with the original
    rangeUpdate (state equality, hence observational equivalence) only on
    states with no pending lazy deltas at all, e.g. any state reachable
    without range updates; C8_counterexample shows that on states with a
    pending delta the two variants give different query answers, so the
    spec's proposed micro-optimization is not behavior-preserving. -/
theorem C8_skip_flush_equiv_when_no_lazy (st : SegTree) (l r : Nat) (v : Int)
    (hz : ∀ j, st.lazy j = 0) :
    updateRangeSkip st l r v = updateRange st l r v := by
  unfold updateRangeSkip updateRange rangeUpdate
  exact rangeUpdateSkipGo_eq (st.n - 1 + 1 - 0) st 1 0 (st.n - 1) l r v (le_refl 1)
    (fun j hj => hz j)

/-- Witness for C8 at a concrete input. -/
theorem C8_witness :
    updateRangeSkip { ar := fun _ => 0, segment_tree := fun _ => 0, lazy := fun _ => 0, n := 2 }
        0 1 5
      = updateRange { ar := fun _ => 0, segment_tree := fun _ => 0, lazy := fun _ => 0, n := 2 }
        0 1 5 :=
  C8_skip_flush_equiv_when_no_lazy
    { ar := fun _ => 0, segment_tree := fun _ => 0, lazy := fun _ => 0, n := 2 } 0 1 5
    (fun j => rfl)

/-! ## Claim C9 -/

/-- Claim C9 (confirmed): in every reachable state, a query over an empty
    range (l > r with both indices within [0, n-1]) returns the sentinel
    INF = 10^18, and the call leaves every subsequent query answer
    unchanged. -/
theorem C9_empty_query_returns_INF (n : Nat) (arr : Nat → Int) (ops : List Op) (st : SegTree)
    (m : Model) (h : Reach n arr ops st m) (l r : Nat)
    (hl : l ≤ n - 1) (hr : r ≤ n - 1) (hlr : r < l) :
    ((rangeMin st l r).1 = INF
      ∧ ∀ l2 r2, (rangeMin (rangeMin st l r).2 l2 r2).1 = (rangeMin st l2 r2).1) := by
  have hn := h.1
  have hS := reach_sim h
  constructor
  · rw [(rangeMin_sim hn hS l r).1]
    unfold rmqSpec
    rw [if_neg (by omega), if_neg (by omega)]
  · intro l2 r2
    rw [(rangeMin_sim hn (rangeMin_sim hn hS l r).2 l2 r2).1, (rangeMin_sim hn hS l2 r2).1]

/-- Witness for C9 at a concrete input. -/
theorem C9_witness :
    ((rangeMin (runS (build 2 (fun _ => 3)) []) 1 0).1 = INF
      ∧ (rangeMin (rangeMin (runS (build 2 (fun _ => 3)) []) 1 0).2 0 1).1
          = (rangeMin (runS (build 2 (fun _ => 3)) []) 0 1).1) := by
  have h : Reach 2 (fun _ => (3 : Int)) [] (runS (build 2 (fun _ => 3)) [])
      (runM ⟨fun _ => 3, fun _ => 3⟩ []) :=
    ⟨by omega, fun op hop => absurd hop (List.not_mem_nil op), rfl, rfl⟩
  exact ⟨(C9_empty_query_returns_INF 2 _ [] _ _ h 1 0 (by omega) (by omega) (by omega)).1,
    (C9_empty_query_returns_INF 2 _ [] _ _ h 1 0 (by omega) (by omega) (by omega)).2 0 1⟩

/-! ## Claim C10 -/

/-- Claim C10 (confirmed): for every state, updateRange and rangeMin leave
    the member base array ar entirely unchanged, and pointUpdate is
    exactly the rangeUpdate with delta val - ar[pos] followed by the write
    ar[pos] = val (so ar is modified only by construction and
    pointUpdate). -/
theorem C10_ar_frame (st : SegTree) (l r p : Nat) (v w : Int) :
    ((updateRange st l r v).ar = st.ar
      ∧ ((rangeMin st l r).2).ar = st.ar
      ∧ (pointUpdate st p w).ar = fset st.ar p w
      ∧ pointUpdate st p w =
          { ar := fset st.ar p w,
            segment_tree := (updateRange st p p (w - st.ar p)).segment_tree,
            lazy := (updateRange st p p (w - st.ar p)).lazy,
            n := (updateRange st p p (w - st.ar p)).n }) := by
  have e1 : (updateRange st l r v).ar = st.ar := by
    unfold updateRange rangeUpdate
    exact (rangeUpdateGo_ar _ _ _ _ _ _ _ _).1
  have e2 : ((rangeMin st l r).2).ar = st.ar := by
    unfold rangeMin query
    exact (queryGo_ar _ _ _ _ _ _ _).1
  have e3 : (updateRange st p p (w - st.ar p)).ar = st.ar := by
    unfold updateRange rangeUpdate
    exact (rangeUpdateGo_ar _ _ _ _ _ _ _ _).1
  refine ⟨e1, e2, ?_, ?_⟩
  · show fset (updateRange st p p (w - st.ar p)).ar p w = fset st.ar p w
    rw [e3]
  · unfold pointUpdate
    dsimp only
    rw [e3]

end SegTreeVerify
